import Mathlib

set_option maxHeartbeats 1000000
set_option maxRecDepth 4096
set_option autoImplicit false

/-!
Verification development for the `dnload.py` assembler post-processor and
minimal-ELF generator (`src/dnload/dnload.py`).

The embedding fixes the platform to Linux/x86_64 (amd64), so the
`PlatformVar` lookups resolve to concrete constants:
`addr = 8`, `align = 1`, `bom = "<"` (little endian),
`memory_page = 0x200000`, `entry = 0x400000`, and `phdr_count` defaults
to 3.  The script runs under Python 2: strings are byte lists and
`chr`/`ord` operate on values 0..255; byte values are modelled as `Nat`.
-/

/-- Values carried by an `AssemblerVariable`: an integer, a string
(symbolic expression or quoted literal), or a list of integers.
`PlatformVar` values are resolved to their integer on the fixed platform. -/
inductive Value where
  | vint (i : Int)
  | vstr (s : String)
  | vlist (l : List Int)
deriving DecidableEq, Repr

/-- The `desc` and `name` fields of a variable hold `None`, a string, or a
list of strings (lists appear once `merge` has applied `listify`). -/
inductive Lval where
  | none
  | str (s : String)
  | list (l : List String)
deriving DecidableEq, Repr

/-- Python truthiness for `Lval` values (`None`, `""` and `[]` are falsy). -/
def Lval.truthy : Lval → Bool
  | .none => false
  | .str s => s != ""
  | .list l => l != []

/-- `listify(lhs, rhs)` from the source, restricted to the string-or-list
values stored in `desc` and `name`.  (On two label lists `listify` agrees
with plain list append, which is used directly where labels are merged.) -/
def listify (lhs rhs : Lval) : Lval :=
  if !lhs.truthy then rhs
  else if !rhs.truthy then lhs
  else match lhs, rhs with
    | .list a, .list b => .list (a ++ b)
    | .list a, .str b => .list (a ++ [b])
    | .str a, .list b => .list (a :: b)
    | .str a, .str b => .list [a, b]
    | a, _ => a

/-- One assembler variable: description, size, value, optional name, the
`original_size` sentinel (-1 unless the variable is a byte fragment) and
the pre and post label lists. -/
structure AssemblerVariable where
  desc : Lval
  size : Nat
  value : Value
  name : Lval
  original_size : Int := -1
  label_pre : List String := []
  label_post : List String := []
deriving DecidableEq, Repr

instance : Inhabited AssemblerVariable :=
  ⟨⟨.none, 0, .vint 0, .none, -1, [], []⟩⟩

/-- Python `int(string)`: surrounding whitespace is ignored, an optional
sign may precede the decimal digits, nothing else is accepted; `none`
models `ValueError`.  (Declared before `pyIsSpace`, the whitespace test
is inlined here.) -/
def pyWs (c : Char) : Bool :=
  c = ' ' || c = '\t' || c = '\n' || c = '\r' || c = '\x0b' || c = '\x0c'

def pyDigits (l : List Char) : Option Nat :=
  if l.isEmpty then Option.none
  else if l.all Char.isDigit then
    some (l.foldl (fun acc c => acc * 10 + (c.toNat - 48)) 0)
  else Option.none

def pyParseInt (s : String) : Option Int :=
  let t := ((s.toList.dropWhile pyWs).reverse.dropWhile pyWs).reverse
  match t with
  | '+' :: r => (pyDigits r).map (fun n => (n : Int))
  | '-' :: r => (pyDigits r).map (fun n => -(n : Int))
  | r => (pyDigits r).map (fun n => (n : Int))

/-- Python `int(value)` for a non-list variable value (`deconstruct`
branches on `is_listing` before calling `int`); `none` models `ValueError`. -/
def Value.pyInt : Value → Option Int
  | .vint i => some i
  | .vstr s => pyParseInt s
  | .vlist _ => Option.none

/-- Little-endian byte expansion used by `struct.pack` with the `<` byte
order mark. -/
def leBytes (n : Nat) (u : Nat) : List Nat :=
  (List.range n).map fun i => u / 256 ^ i % 256

/-- `AssemblerVariable.deconstruct_single`: pack one integer of the given
size into little-endian bytes.  The source packs signed (`h`/`i`/`q`) for
negative values and unsigned (`H`/`I`/`Q`) otherwise; both agree with the
two's-complement bytes of `op mod 2^(8*size)` on their valid ranges.
`none` models the uncaught `struct.error` (value out of range) or
`RuntimeError` (unsupported size), which abort the program. -/
def deconstruct_single (size : Nat) (op : Int) : Option (List Nat) :=
  if size = 1 then
    if 0 ≤ op ∧ op < 256 then some [op.toNat] else Option.none
  else if size = 2 then
    if -(2 ^ 15) ≤ op ∧ op < 2 ^ 16 then some (leBytes 2 (op % 2 ^ 16).toNat)
    else Option.none
  else if size = 4 then
    if -(2 ^ 31) ≤ op ∧ op < 2 ^ 32 then some (leBytes 4 (op % 2 ^ 32).toNat)
    else Option.none
  else if size = 8 then
    if -(2 ^ 63) ≤ op ∧ op < 2 ^ 64 then some (leBytes 8 (op % 2 ^ 64).toNat)
    else Option.none
  else Option.none

/-- Result of `AssemblerVariable.deconstruct`: `crash` models an uncaught
exception, `halt` the `return False` taken on `ValueError`, and `bytes`
the returned variable list. -/
inductive DeconRes where
  | crash
  | halt
  | bytes (l : List AssemblerVariable)
deriving DecidableEq, Repr

/-- Build the byte variables produced by `deconstruct`: the first byte
inherits description, name, original size and pre-labels; the last byte
inherits the post-labels; the others are plain. -/
def mkByteVars (v : AssemblerVariable) (l : List Nat) : List AssemblerVariable :=
  l.enum.map fun p =>
    let base : AssemblerVariable :=
      { desc := .str "", size := 1, value := .vint p.2, name := .none }
    if p.1 = 0 then
      { base with desc := v.desc, name := v.name, original_size := (v.size : Int),
                  label_pre := v.label_pre }
    else if p.1 = l.length - 1 then
      { base with label_post := v.label_post }
    else base

/-- `AssemblerVariable.deconstruct`: split an integer-valued variable into
its little-endian byte stream; values that fail `int()` conversion leave
the variable untouched (`halt`); streams of at most one byte return the
variable itself. -/
def AssemblerVariable.deconstruct (v : AssemblerVariable) : DeconRes :=
  let packed : Option (Option (List Nat)) :=
    match v.value with
    | .vlist l =>
        some (l.foldl (fun acc i =>
          match acc, deconstruct_single v.size i with
          | some a, some b => some (a ++ b)
          | _, _ => Option.none) (some []))
    | w =>
        match w.pyInt with
        | Option.none => Option.none
        | some i => some (deconstruct_single v.size i)
  match packed with
  | Option.none => .halt
  | some Option.none => .crash
  | some (some lst) =>
      if lst.length ≤ 1 then .bytes [v] else .bytes (mkByteVars v lst)

/-- `AssemblerVariable.mergable`: equal (integer) sizes and equal values. -/
def AssemblerVariable.mergable (a b : AssemblerVariable) : Bool :=
  a.size == b.size && a.value == b.value

/-- `AssemblerVariable.merge`: union descriptions, names and label lists
(on the label lists `listify` coincides with append). -/
def AssemblerVariable.merge (a b : AssemblerVariable) : AssemblerVariable :=
  { a with desc := listify a.desc b.desc, name := listify a.name b.name,
           label_pre := a.label_pre ++ b.label_pre,
           label_post := a.label_post ++ b.label_post }

/-- Python 2 `chr(value)` as used by `reconstruct`: defined only for
integers 0..255, anything else raises and aborts (`none`). -/
def chrVal : Value → Option Nat
  | .vint i => if 0 ≤ i ∧ i < 256 then some i.toNat else Option.none
  | _ => Option.none

/-- Little-endian reassembly used by `struct.unpack` (unsigned formats). -/
def bytesToNat (l : List Nat) : Nat :=
  l.foldr (fun b acc => b + 256 * acc) 0

/-- Result of the byte-collecting loop in `AssemblerVariable.reconstruct`. -/
inductive RecLoopRes where
  | crash
  | fail
  | ok (bytes : List Nat)
deriving DecidableEq, Repr

/-- Result of `AssemblerVariable.reconstruct`: `crash` models an uncaught
exception, `fail` the `return False`, `ok n` the returned consumed count. -/
inductive ReconRes where
  | crash
  | fail
  | ok (consumed : Nat)
deriving DecidableEq, Repr

/-- The byte-collecting loop of `AssemblerVariable.reconstruct`: `ii` is
the loop index, `todo` the remaining listed variables, `acc` the bytes
collected so far.  The returned variable reflects the post-label merge
performed before a possible later failure in the same iteration. -/
def reconLoop (self : AssemblerVariable) (os : Int) (todo : List AssemblerVariable)
    (ii : Nat) (acc : List Nat) : AssemblerVariable × RecLoopRes :=
  match todo with
  | [] => (self, .ok acc)
  | op :: rest =>
    if op.name.truthy then (self, .fail)
    else if op.label_pre ≠ [] then (self, .fail)
    else if op.label_post ≠ [] ∧ (ii : Int) ≠ os - 2 then (self, .fail)
    else
      let self := if op.label_post ≠ [] then
        { self with label_post := self.label_post ++ op.label_post } else self
      if op.desc ≠ .str "" then (self, .fail)
      else if op.original_size ≠ -1 then (self, .fail)
      else match chrVal op.value with
        | Option.none => (self, .crash)
        | some b => reconLoop self os rest (ii + 1) (acc ++ [b])

/-- `AssemblerVariable.reconstruct`: try to rebuild a wider variable from
the byte variables that follow it; the first component is the variable
with its mutations applied (the `original_size` reset happens even on the
failure paths). -/
def AssemblerVariable.reconstruct (v : AssemblerVariable) (lst : List AssemblerVariable) :
    AssemblerVariable × ReconRes :=
  let os : Int := v.original_size
  let v := { v with original_size := -1 }
  if os ≤ 1 then (v, .fail)
  else if (lst.length : Int) < os - 1 then (v, .fail)
  else match chrVal v.value with
    | Option.none => (v, .crash)
    | some b0 =>
      match reconLoop v os (lst.take (os - 1).toNat) 0 [b0] with
      | (w, .crash) => (w, .crash)
      | (w, .fail) => (w, .fail)
      | (w, .ok bytes) =>
        let value := if os = 2 ∨ os = 4 ∨ os = 8 then
            Value.vint (bytesToNat bytes) else w.value
        ({ w with value := value, size := os.toNat }, .ok (os - 1).toNat)

/-- `AssemblerSegment.reconstruct` on a byte stream: fold the stream back
into data variables; `none` models an uncaught exception. -/
def sreconstruct : List AssemblerVariable → Option (List AssemblerVariable)
  | [] => some []
  | front :: rest =>
    match front.reconstruct rest with
    | (_, .crash) => Option.none
    | (v, .fail) => (sreconstruct rest).map (v :: ·)
    | (v, .ok n) => (sreconstruct (rest.drop n)).map (v :: ·)
termination_by l => l.length
decreasing_by
  all_goals simp [List.length_drop]
  all_goals omega

/-- A segment: a name, an optional description, and the variable list. -/
structure AssemblerSegment where
  name : String
  desc : Option String := Option.none
  data : List AssemblerVariable := []
deriving DecidableEq, Repr

/-- Helper for `AssemblerSegment.deconstruct_head`: deconstruct variables
from the front until a non-deconstructible one is hit. -/
def deconHeadAux : List AssemblerVariable →
    Option (List AssemblerVariable × List AssemblerVariable)
  | [] => some ([], [])
  | v :: rest =>
    match v.deconstruct with
    | .crash => Option.none
    | .halt => some ([], v :: rest)
    | .bytes bs => (deconHeadAux rest).map fun p => (bs ++ p.1, p.2)

/-- `AssemblerSegment.deconstruct_head`: the byte stream of the segment's
head together with the non-deconstructible tail. -/
def AssemblerSegment.deconstruct_head (s : AssemblerSegment) :
    Option (List AssemblerVariable × List AssemblerVariable) :=
  deconHeadAux s.data

/-- Helper for `AssemblerSegment.deconstruct_tail`, processing the data in
reverse order (last variable first). -/
def deconTailAux : List AssemblerVariable →
    Option (List AssemblerVariable × List AssemblerVariable)
  | [] => some ([], [])
  | v :: rest =>
    match v.deconstruct with
    | .crash => Option.none
    | .halt => some ((v :: rest).reverse, [])
    | .bytes bs => (deconTailAux rest).map fun p => (p.1, p.2 ++ bs)

/-- `AssemblerSegment.deconstruct_tail`: the non-deconstructible head
together with the byte stream of the segment's tail. -/
def AssemblerSegment.deconstruct_tail (s : AssemblerSegment) :
    Option (List AssemblerVariable × List AssemblerVariable) :=
  deconTailAux s.data.reverse

/-- The inner check of `AssemblerSegment.merge`: the last `k` bytes of
`src` are pairwise mergable with the first `k` bytes of `dst`. -/
def pairwiseMergable (src dst : List AssemblerVariable) (k : Nat) : Bool :=
  (List.range k).all fun jj =>
    (src.getD (src.length - k + jj) default).mergable (dst.getD jj default)

/-- The overlap search loop of `AssemblerSegment.merge`: the largest
`ii + 1` whose byte windows are pairwise mergable, 0 if none. -/
def highestMergable (src dst : List AssemblerVariable) : Nat :=
  (List.range (min src.length dst.length)).foldl
    (fun acc ii => if pairwiseMergable src dst (ii + 1) then ii + 1 else acc) 0

/-- Merge the first `k` variables of `dst` into the last `k` of `src`. -/
def mergeLastK (src dst : List AssemblerVariable) (k : Nat) : List AssemblerVariable :=
  src.take (src.length - k) ++
    (src.drop (src.length - k)).zipWith AssemblerVariable.merge (dst.take k)

/-- `AssemblerSegment.merge`: the updated segment pair together with the
Python return value; `none` models a crash. -/
def AssemblerSegment.merge (a b : AssemblerSegment) :
    Option (AssemblerSegment × AssemblerSegment × Bool) :=
  match a.deconstruct_tail, b.deconstruct_head with
  | some (head_src, bs_src), some (bs_dst, tail_dst) =>
    let k := highestMergable bs_src bs_dst
    if k = 0 then some (a, b, false)
    else
      match sreconstruct (head_src ++ mergeLastK bs_src bs_dst k),
            sreconstruct (bs_dst.drop k ++ tail_dst) with
      | some da, some db => some ({ a with data := da }, { b with data := db }, true)
      | _, _ => Option.none
  | _, _ => Option.none

/-- Deconstruct a variable and rebuild a variable from the resulting byte
stream (the reconstruction step `AssemblerSegment.reconstruct` applies to
the head of the stream). -/
def roundTrip (v : AssemblerVariable) : Option AssemblerVariable :=
  match v.deconstruct with
  | .bytes (b0 :: rest) =>
    match b0.reconstruct rest with
    | (_, ReconRes.crash) => Option.none
    | (w, _) => some w
  | _ => Option.none

/-- `sdbm_hash` from the source: fold the SDBM recurrence over the bytes of
the name (the Python function wraps the resulting number in `hex()`; the
numeric value is modelled). -/
def sdbm_hash (l : List Char) : Nat :=
  l.foldl (fun h c => (h * 65599 + c.toNat) % 4294967296) 0

/-- `AssemblerVariable.remove_label_pre`: drop the first occurrence of a
pre-label if present (Python `list.remove` guarded by `in`). -/
def AssemblerVariable.remove_label_pre (v : AssemblerVariable) (op : String) :
    AssemblerVariable :=
  { v with label_pre := v.label_pre.erase op }

/-- `AssemblerVariable.remove_label_post`: drop the first occurrence of a
post-label if present. -/
def AssemblerVariable.remove_label_post (v : AssemblerVariable) (op : String) :
    AssemblerVariable :=
  { v with label_post := v.label_post.erase op }

/-- Apply a function to the last element of a list (if any). -/
def modifyLast (f : AssemblerVariable → AssemblerVariable) :
    List AssemblerVariable → List AssemblerVariable
  | [] => []
  | [x] => [f x]
  | x :: y :: xs => x :: modifyLast f (y :: xs)

/-- `AssemblerSegment.refresh_name_label`: remove the segment name from all
pre-label lists, then add it to the first variable. -/
def AssemblerSegment.refresh_name_label (s : AssemblerSegment) : AssemblerSegment :=
  match s.data.map (fun v => v.remove_label_pre s.name) with
  | [] => { s with data := [] }
  | h :: t => { s with data := { h with label_pre := h.label_pre ++ [s.name] } :: t }

/-- `AssemblerSegment.refresh_name_end_label`: remove `<name>_end` from all
post-label lists, then add it to the last variable. -/
def AssemblerSegment.refresh_name_end_label (s : AssemblerSegment) : AssemblerSegment :=
  let e := s.name ++ "_end"
  let d := s.data.map (fun v => v.remove_label_post e)
  { s with data := modifyLast (fun v => { v with label_post := v.label_post ++ [e] }) d }

/-- `AssemblerSegment.add_data` for a 3-tuple argument (description, size,
value), as used by `add_hash`: append the variable and refresh the name
labels. -/
def AssemblerSegment.add_data (s : AssemblerSegment) (desc : String) (size : Nat)
    (value : Value) : AssemblerSegment :=
  let nv : AssemblerVariable := { desc := .str desc, size := size, value := value, name := .none }
  (({ s with data := s.data ++ [nv] }).refresh_name_label).refresh_name_end_label

/-- `AssemblerSegment.add_hash`: generate the minimal DT_HASH data from a
symbol listing. -/
def AssemblerSegment.add_hash (s : AssemblerSegment) (lst : List String) :
    AssemblerSegment :=
  let s := { s with data := [] }
  let num := lst.length + 1
  let s := s.add_data "" 4 (.vint 1)
  let s := s.add_data "" 4 (.vint (num : Int))
  let s := s.add_data "" 4 (.vint ((num - 1 : Nat) : Int))
  let s := s.add_data "" 4 (.vint 0)
  if 1 < num then
    (List.range (num - 1)).foldl (fun t (ii : Nat) => t.add_data "" 4 (.vint (ii : Int))) s
  else s

/-- A 4-byte hash-table word holding the (casted) value `ii`. -/
def hashWord (ii : Nat) : Nat × Value := (4, Value.vint (ii : Int))

/-- Size and value of a variable, the data visible in the emitted words. -/
def sizeValue (v : AssemblerVariable) : Nat × Value :=
  (v.size, v.value)

/-- Concrete variable used to refute C9: two 4-byte variables of equal
value are mergable even though their size is not 1. -/
def c9ex : AssemblerVariable :=
  { desc := .none, size := 4, value := .vint 5, name := .none }

/-- Concrete segment used by the DT_HASH claims. -/
def hashSegEx : AssemblerSegment :=
  { name := "hash", desc := some "DT_HASH" }

/-- Concrete variable used to refute C1: a 2-byte variable with the
negative value -1. -/
def c1negEx : AssemblerVariable :=
  { desc := .str "", size := 2, value := .vint (-1), name := .none }

/-- Concrete variable used to witness the amended C1. -/
def c1posEx : AssemblerVariable :=
  { desc := .str "e_version, EV_CURRENT = 1", size := 4, value := .vint 305419896,
    name := .str "ver", label_pre := ["a"], label_post := ["b"] }

/-! ### Line matching

The regular expressions of the source, implemented directly over the
characters of a line.  `re.match` anchors at the start and needs no
trailing context, and `want_line` passes `re.IGNORECASE`, so literals are
compared case-insensitively where noted. -/

/-- Python `\s`: space, tab, newline, carriage return, vertical tab and
form feed. -/
def pyIsSpace (c : Char) : Bool :=
  c = ' ' || c = '\t' || c = '\n' || c = '\r' || c = '\x0b' || c = '\x0c'

/-- `\s+` (greedy): require at least one whitespace character, consume the
whole run. -/
def ws1 : List Char → Option (List Char)
  | [] => Option.none
  | c :: r => if pyIsSpace c then some (r.dropWhile pyIsSpace) else Option.none

/-- Case-insensitive literal match (the pattern is given in lower case);
returns the remaining input. -/
def matchLitCi : List Char → List Char → Option (List Char)
  | [], l => some l
  | _ :: _, [] => Option.none
  | p :: ps, c :: cs => if c.toLower = p then matchLitCi ps cs else Option.none

/-- Case-sensitive literal match; returns the remaining input. -/
def matchLitCs : List Char → List Char → Option (List Char)
  | [], l => some l
  | _ :: _, [] => Option.none
  | p :: ps, c :: cs => if c = p then matchLitCs ps cs else Option.none

/-- The `(.*)` group of a directive pattern: everything up to the line's
newline. -/
def restOfLine (l : List Char) : String :=
  String.mk (l.takeWhile (fun c => c ≠ '\n'))

/-- The digits of a decimal numeral, as a number (`\d+` greedy). -/
def digitsToNat (l : List Char) : Nat :=
  l.foldl (fun acc c => acc * 10 + (c.toNat - 48)) 0

/-- `\s*\.LIT\s+` (case-insensitive): the shared shape of the nine
crunch patterns (`.file`, `.globl`, `.ident`, `.section`, `.type`,
`.size`, `.bss`, `.data`, `.text`). -/
def isDotDirective (lit : List Char) (line : String) : Bool :=
  match matchLitCi ('.' :: lit) (line.toList.dropWhile pyIsSpace) with
  | some r => (ws1 r).isSome
  | Option.none => false

/-- `\s*\.globl\s+(\S+).*` (case-insensitive): the extractor's `.globl`
pattern; returns the captured name. -/
def matchGlobl (line : String) : Option String :=
  match matchLitCi ('.' :: "globl".toList) (line.toList.dropWhile pyIsSpace) with
  | some r =>
    match ws1 r with
    | some r2 =>
      let tok := r2.takeWhile (fun c => !pyIsSpace c)
      if tok.isEmpty then Option.none else some (String.mk tok)
    | Option.none => Option.none
  | Option.none => Option.none

/-- `\s*.type\s+(NAME),\s+@object` (case-insensitive): note that the
first `.` of the source pattern is unescaped and matches any character,
and that at least one whitespace character is required after the comma.
The interpolated name is matched literally (names contain no
metacharacters). -/
def matchTypeObject (name : String) (line : String) : Bool :=
  match line.toList.dropWhile pyIsSpace with
  | [] => false
  | c :: r =>
    if c = '\n' then false
    else match matchLitCi "type".toList r with
    | some r2 =>
      match ws1 r2 with
      | some r3 =>
        match matchLitCi (name.toList.map Char.toLower) r3 with
        | some (',' :: r4) =>
          match ws1 r4 with
          | some r5 => (matchLitCi "@object".toList r5).isSome
          | Option.none => false
        | _ => false
      | Option.none => false
    | Option.none => false

/-- `\s*(NAME)\:` (case-insensitive). -/
def matchLabelLine (name : String) (line : String) : Bool :=
  match matchLitCi (name.toList.map Char.toLower) (line.toList.dropWhile pyIsSpace) with
  | some (':' :: _) => true
  | _ => false

/-- `\s*\.zero\s+(\d+)` (case-insensitive): returns the captured size. -/
def matchZero (line : String) : Option Nat :=
  match matchLitCi ('.' :: "zero".toList) (line.toList.dropWhile pyIsSpace) with
  | some r =>
    match ws1 r with
    | some r2 =>
      let ds := r2.takeWhile Char.isDigit
      if ds.isEmpty then Option.none else some (digitsToNat ds)
    | Option.none => Option.none
  | Option.none => Option.none

/-- `\s*\.local\s+(\S+).*` (case-insensitive). -/
def matchLocal (line : String) : Option String :=
  match matchLitCi ('.' :: "local".toList) (line.toList.dropWhile pyIsSpace) with
  | some r =>
    match ws1 r with
    | some r2 =>
      let tok := r2.takeWhile (fun c => !pyIsSpace c)
      if tok.isEmpty then Option.none else some (String.mk tok)
    | Option.none => Option.none
  | Option.none => Option.none

/-- `\s*\.comm\s+NAME\s*,(.*)` (case-insensitive): returns the size text
after the comma. -/
def matchComm (name : String) (line : String) : Option String :=
  match matchLitCi ('.' :: "comm".toList) (line.toList.dropWhile pyIsSpace) with
  | some r =>
    match ws1 r with
    | some r2 =>
      match matchLitCi (name.toList.map Char.toLower) r2 with
      | some r3 =>
        match r3.dropWhile pyIsSpace with
        | ',' :: r4 => some (restOfLine r4)
        | _ => Option.none
      | Option.none => Option.none
    | Option.none => Option.none
  | Option.none => Option.none

/-- `\s*(\d+)\s*,\s*(\d+).*` applied to the `.comm` size text, falling
back to `int(size)`; `none` models the uncaught `ValueError`. -/
def commSize (s : String) : Option Int :=
  let l := s.toList.dropWhile pyIsSpace
  let ds := l.takeWhile Char.isDigit
  let r := l.dropWhile Char.isDigit
  let twoPart : Bool :=
    if ds.isEmpty then false
    else match r.dropWhile pyIsSpace with
      | ',' :: r2 => !((r2.dropWhile pyIsSpace).takeWhile Char.isDigit).isEmpty
      | _ => false
  if twoPart then some (digitsToNat ds : Nat) else pyParseInt s

/-- `\s*(_start)\:.*` (case-insensitive). -/
def matchStartLabel (line : String) : Bool :=
  matchLabelLine "_start" line

/-- `\s*(push\S).*` (case-insensitive): returns the lowered character
following `push`. -/
def matchPush (line : String) : Option Char :=
  match matchLitCi "push".toList (line.toList.dropWhile pyIsSpace) with
  | some (c :: _) => if pyIsSpace c then Option.none else some c.toLower
  | _ => Option.none

/-- `\s*xor.*` (case-insensitive). -/
def matchXor (line : String) : Bool :=
  (matchLitCi "xor".toList (line.toList.dropWhile pyIsSpace)).isSome

/-- `asm_get_push_width` on the captured `push?` instruction: 8 for
`pushq`, 4 for `pushl`, otherwise a fatal `RuntimeError` (`none`). -/
def asm_get_push_width (c : Char) : Option Int :=
  if c = 'q' then some 8 else if c = 'l' then some 4 else Option.none

/-- `[er]sp` somewhere in a nonspace run (case-insensitive), as required
by the third group of the `sub` pattern. -/
def hasErSp : List Char → Bool
  | c1 :: c2 :: c3 :: rest =>
      ((c1.toLower = 'e' || c1.toLower = 'r') && c2.toLower = 's' && c3.toLower = 'p')
        || hasErSp (c2 :: c3 :: rest)
  | _ => false

/-- Check `\s*,\s*\S*[er]sp.*` at the front of the remaining input. -/
def subG3Check (l : List Char) : Bool :=
  match l.dropWhile pyIsSpace with
  | ',' :: r => hasErSp ((r.dropWhile pyIsSpace).takeWhile (fun c => !pyIsSpace c))
  | _ => false

/-- The second group `\$?\S+` of the `sub` pattern, with the regex
backtracking order (`\$` consumed first, then the longest `\S+` whose
remainder satisfies the third group). -/
def subOperand (r3 : List Char) : Option (List Char × List Char) :=
  let run := r3.takeWhile (fun c => !pyIsSpace c)
  if run.isEmpty then Option.none
  else
    let withDollar : List (List Char × List Char) :=
      if run.head? = some '$' then
        (List.range (run.length - 1)).map
          (fun k => (run.take (run.length - k), r3.drop (run.length - k)))
      else []
    let without : List (List Char × List Char) :=
      (List.range run.length).map
        (fun k => (run.take (run.length - k), r3.drop (run.length - k)))
    (withDollar ++ without).find? (fun p => subG3Check p.2)

/-- `(\s*sub\S*\s+)(\$?\S+)(\s*,\s*\S*[er]sp.*)` (case-insensitive):
returns the three groups with their original characters. -/
def matchSub (line : String) : Option (String × String × String) :=
  let l := line.toList
  let ws := l.takeWhile pyIsSpace
  let l1 := l.dropWhile pyIsSpace
  match matchLitCi "sub".toList l1 with
  | Option.none => Option.none
  | some r =>
    let run := r.takeWhile (fun c => !pyIsSpace c)
    let r2 := r.dropWhile (fun c => !pyIsSpace c)
    match ws1 r2 with
    | Option.none => Option.none
    | some r3 =>
      let sp := r2.takeWhile pyIsSpace
      match subOperand r3 with
      | Option.none => Option.none
      | some (g2, rest) =>
        if subG3Check rest then
          some (String.mk (ws ++ l1.take 3 ++ run ++ sp), String.mk g2,
            String.mk (rest.takeWhile (fun c => c ≠ '\n')))
        else Option.none

/-- `\s*\S+\:\s*`: after optional whitespace, a nonspace run of length at
least one followed by a colon (the footer scan's label pattern). -/
def hasLabelColon (line : String) : Bool :=
  match line.toList.dropWhile pyIsSpace with
  | [] => false
  | c :: rest =>
    if pyIsSpace c then false
    else colonSearch rest
where
  colonSearch : List Char → Bool
    | [] => false
    | c :: r => if c = ':' then true else if pyIsSpace c then false else colonSearch r

/-- `\s*(syscall).*` (case-insensitive). -/
def matchSyscall (line : String) : Bool :=
  (matchLitCi "syscall".toList (line.toList.dropWhile pyIsSpace)).isSome

/-- `.*\.align\s+(\d+).*` (case-sensitive): the value of the last
`.align N` occurrence on the line (the leading `.*` is greedy). -/
def findAlignVal (line : String) : Option Nat :=
  go line.toList Option.none
where
  alignAt (l : List Char) : Option Nat :=
    match matchLitCs ".align".toList l with
    | some r =>
      match ws1 r with
      | some r2 =>
        let ds := r2.takeWhile Char.isDigit
        if ds.isEmpty then Option.none else some (digitsToNat ds)
      | Option.none => Option.none
    | Option.none => Option.none
  go : List Char → Option Nat → Option Nat
    | [], acc => acc
    | l@(_ :: r), acc =>
      match alignAt l with
      | some n => go r (some n)
      | Option.none => go r acc

/-- The section splitter `^\s+\.section\s+\"?\.([a-zA-Z0-9_]+)[\.\s]`
(case-sensitive, requires leading whitespace): returns the captured
section name. -/
def matchSectionDir (line : String) : Option String :=
  match line.toList with
  | [] => Option.none
  | c :: _ =>
    if !pyIsSpace c then Option.none
    else
      match matchLitCs ".section".toList (line.toList.dropWhile pyIsSpace) with
      | Option.none => Option.none
      | some r =>
        match ws1 r with
        | Option.none => Option.none
        | some r2 =>
          let r3 := match r2 with
            | '"' :: t => t
            | t => t
          match r3 with
          | '.' :: r4 =>
            let word := r4.takeWhile (fun c => c.isAlpha || c.isDigit || c = '_')
            if word.isEmpty then Option.none
            else match r4.drop word.length with
              | c :: _ => if c = '.' || pyIsSpace c then some (String.mk word)
                  else Option.none
              | [] => Option.none
          | _ => Option.none

/-! ### Sections: crunching and .bss extraction -/

/-- A section of a compiler-emitted assembler file: name, the original
`.section` directive line (absent for the synthetic leading `text`
section and for synthetic sections), and the content lines. -/
structure AssemblerSection where
  name : String
  tag : Option String := Option.none
  content : List String := []
deriving DecidableEq, Repr

/-- `AssemblerSection.empty`: returns False when the content list is
empty and True otherwise (note the inversion of the name). -/
def AssemblerSection.empty (s : AssemblerSection) : Bool :=
  if s.content.isEmpty then false else true

/-- `erase(first)`: remove one line. -/
def eraseAt (content : List String) (i : Nat) : List String :=
  content.take i ++ content.drop (i + 1)

/-- `erase(first, last)`: remove the lines in `[first, last)`. -/
def eraseRange (content : List String) (a b : Nat) : List String :=
  content.take a ++ content.drop b

/-- `want_line(op, first)`: the first line from index `first` on that
matches, together with the captured group. -/
def findFromAux {α : Type} (m : String → Option α) :
    List String → Nat → Option (Nat × α)
  | [], _ => Option.none
  | l :: r, i =>
    match m l with
    | some a => some (i, a)
    | Option.none => findFromAux m r (i + 1)

def findFrom {α : Type} (m : String → Option α) (content : List String) (first : Nat) :
    Option (Nat × α) :=
  findFromAux m (content.drop first) first

/-- The directive-erasing loop of `AssemblerSection.crunch`: repeatedly
erase the first line matching one of the nine patterns, in pattern
order, until none matches. -/
def crunchDirectives : Nat → List String → List String
  | 0, c => c
  | fuel + 1, c =>
    let pats : List (String → Bool) :=
      ["file", "globl", "ident", "section", "type", "size", "bss", "data", "text"].map
        (fun w l => isDotDirective w.toList l)
    match firstHit pats c with
    | some i => crunchDirectives fuel (eraseAt c i)
    | Option.none => c
where
  firstHit : List (String → Bool) → List String → Option Nat
    | [], _ => Option.none
    | p :: ps, c =>
      match c.findIdx? p with
      | some i => some i
      | Option.none => firstHit ps c

/-- The scanning loop of `crunch_entry_push` from line `jj` on:
accumulate push widths, reinstate `xor` lines, optionally rewrite a
`sub` immediate, then erase the scanned lines and re-insert the
reinstated ones.  `none` models the uncaught `IndexError` (running past
the end) or a fatal error from `asm_get_push_width` / `int()`. -/
def cepLoop (content : List String) (ii : Nat) (reinstated : List String)
    (offset : Int) : Nat → Nat → Option (List String)
  | _, 0 => Option.none
  | jj, fuel + 1 =>
    match content.get? jj with
    | Option.none => Option.none
    | some line =>
      match matchPush line with
      | some c =>
        match asm_get_push_width c with
        | some w => cepLoop content ii reinstated (offset + w) (jj + 1) fuel
        | Option.none => Option.none
      | Option.none =>
        if matchXor line then
          cepLoop content ii (reinstated ++ [line]) offset (jj + 1) fuel
        else
          match matchSub line with
          | some (g1, g2, g3) =>
            let addition : Option String :=
              match g2.toList with
              | '$' :: r => (pyParseInt (String.mk r)).map
                  (fun n => "$" ++ toString (n + offset))
              | _ => (pyParseInt g2).map (fun n => toString (n + offset))
            match addition with
            | Option.none => Option.none
            | some add =>
              let content := content.take jj ++ [g1 ++ add ++ g3 ++ "\n"]
                ++ content.drop (jj + 1)
              some (content.take ii ++ reinstated ++ content.drop jj)
          | Option.none =>
            some (content.take ii ++ reinstated ++ content.drop jj)

/-- `AssemblerSection.crunch_entry_push`: excise the push prologue after
`_start:`. -/
def crunch_entry_push (content : List String) : Option (List String) :=
  match findFrom (fun l => if matchStartLabel l then some () else Option.none) content 0 with
  | Option.none => some content
  | some (idx, _) => cepLoop content (idx + 1) [] 0 (idx + 1) (content.length + 1)

/-- The syscall-footer erasure of `crunch_amd64`: after the first
`syscall` line, delete every line up to (but not including) the next
label line or the end of the section. -/
def syscallFooter (content : List String) : List String :=
  match findFrom (fun l => if matchSyscall l then some () else Option.none) content 0 with
  | Option.none => content
  | some (p, _) =>
    content.take (p + 1) ++ (content.drop (p + 1)).dropWhile (fun l => !hasLabelColon l)

/-- `AssemblerSection.crunch` on amd64: erase the directive lines, then
`crunch_entry_push` and the syscall footer erasure. -/
def crunchContent (content : List String) : Option (List String) :=
  let c1 := crunchDirectives (content.length + 1) content
  (crunch_entry_push c1).map syscallFooter

/-- `AssemblerSection.minimal_align` on amd64 (desired alignment 1):
replace every differing `.align N` line by `  .balign 1`. -/
def minimal_align (content : List String) : List String :=
  content.map fun line =>
    match findAlignVal line with
    | some a => if a ≠ 1 then "  .balign 1\n" else line
    | Option.none => line

/-- The searching loop of `AssemblerSection.extract_globl_object`:
find `.globl NAME` followed (not necessarily adjacently) by
`.type NAME, @object`, `NAME:` and `.zero SIZE`; erase the whole span
and return the pair.  On an inner mismatch the search resumes at the
line after the `.globl`. -/
def extractGlobl (content : List String) : Nat → Nat → Option (String × Int × List String)
  | _, 0 => Option.none
  | idx, fuel + 1 =>
    match findFrom matchGlobl content idx with
    | Option.none => Option.none
    | some (attempt, name) =>
      let idx := attempt + 1
      match findFrom (fun l => if matchTypeObject name l then some () else Option.none)
          content idx with
      | Option.none => extractGlobl content idx fuel
      | some (t, _) =>
        match findFrom (fun l => if matchLabelLine name l then some () else Option.none)
            content (t + 1) with
        | Option.none => extractGlobl content idx fuel
        | some (lb, _) =>
          match findFrom matchZero content (lb + 1) with
          | Option.none => extractGlobl content idx fuel
          | some (z, n) => some (name, (n : Int), eraseRange content attempt (z + 1))

/-- The searching loop of `AssemblerSection.extract_comm_object`:
`.local NAME` followed by `.comm NAME, SIZE`; the outer `none` models
the uncaught `ValueError` of `int()` on a malformed size. -/
def extractComm (content : List String) :
    Nat → Nat → Option (Option (String × Int × List String))
  | _, 0 => some Option.none
  | idx, fuel + 1 =>
    match findFrom matchLocal content idx with
    | Option.none => some Option.none
    | some (attempt, name) =>
      let idx := attempt + 1
      match findFrom (matchComm name) content idx with
      | Option.none => extractComm content idx fuel
      | some (ci, sizeStr) =>
        match commSize sizeStr with
        | Option.none => Option.none
        | some sz => some (some (name, sz, eraseRange content attempt (ci + 1)))

/-- `AssemblerSection.extract_bss`: try the `.globl` extractor, then the
`.comm` extractor; when neither finds anything, run `minimal_align` and
`crunch` and report no entry.  `none` models a crash. -/
def extract_bss (content : List String) :
    Option (Option (String × Int) × List String) :=
  match extractGlobl content 0 (content.length + 1) with
  | some (n, sz, c) => some (some (n, sz), c)
  | Option.none =>
    match extractComm content 0 (content.length + 1) with
    | Option.none => Option.none
    | some (some (n, sz, c)) => some (some (n, sz), c)
    | some Option.none =>
      (crunchContent (minimal_align content)).map (fun c2 => (Option.none, c2))

/-- The per-section loop of `generate_fake_bss`: pull out `.bss` entries
until none is found, threading the offset, the running total and the
element list. -/
def sectionExtractLoop :
    Nat → List String → Int × Int × List (String × Int) →
    Option ((Int × Int × List (String × Int)) × List String)
  | 0, _, _ => Option.none
  | fuel + 1, c, (offset, size, elems) =>
    match extract_bss c with
    | Option.none => Option.none
    | some (Option.none, c2) => some ((offset, size, elems), c2)
    | some (some (nm, sz), c2) =>
      let size2 := offset + sz
      let offset2 := if 0 < size2 % 4 then size2 + (4 - size2 % 4) else size2
      sectionExtractLoop fuel c2 (offset2, size2, elems ++ [(nm, offset)])

/-- `generate_fake_bss` over the section list: extract all `.bss`
elements (crunching each section), then append the synthetic `.bss`
section.  Returns the new section list, the `.bss` section's lines, the
total size, the resolved `bss_offset` and the boolean return value. -/
def generate_fake_bss (sections : List AssemblerSection) :
    Option (List AssemblerSection × List String × Int × Int × Bool) :=
  match gfbGo sections (0, 0, []) with
  | Option.none => Option.none
  | some (sections2, (_, size, elems)) =>
    let flag : Bool := 128 * 1048576 < size
    let bssOffsetVal : Int := if flag then 2097152 else 0
    let bssOffsetStr : String := if flag then "0x200000" else "0"
    let bss : List String :=
      ["end:\n", ".balign 8\n", "aligned_end:\n",
        ".equ bss_start, aligned_end + " ++ bssOffsetStr ++ "\n"]
      ++ elems.map (fun e => ".equ " ++ e.1 ++ ", bss_start + " ++ toString e.2 ++ "\n")
      ++ [".equ bss_end, bss_start + " ++ toString size ++ "\n"]
    some (sections2 ++ [⟨".bss", Option.none, bss⟩], bss, size, bssOffsetVal, flag)
where
  gfbGo : List AssemblerSection → Int × Int × List (String × Int) →
      Option (List AssemblerSection × (Int × Int × List (String × Int)))
    | [], st => some ([], st)
    | s :: rest, st =>
      match sectionExtractLoop (s.content.length + 1) s.content st with
      | Option.none => Option.none
      | some (st2, c2) =>
        (gfbGo rest st2).map (fun p =>
          ({ s with content := c2, tag := Option.none } :: p.1, p.2))

/-- The `phdr_count` platform variable after `main` has processed the
`generate_fake_bss` return value: `replace_platform_variable` bumps the
default 3 to 4 when a second PT_LOAD is required. -/
def phdr_count_after (flag : Bool) : Nat :=
  if flag then 4 else 3

/-- The number of PT_LOAD segments `main` emits for the flag. -/
def load_segment_count (flag : Bool) : Nat :=
  if flag then 2 else 1

/-! ### Parsing an assembler file into sections -/

/-- The constructor loop of `AssemblerFile.__init__`: split the lines at
`.section` directives; the trailing section is appended only when
`empty()` is falsy, i.e. only when its content list is empty. -/
def parseGo : List String → List AssemblerSection → AssemblerSection →
    List AssemblerSection
  | [], secs, cur => if cur.empty = false then secs ++ [cur] else secs
  | l :: rest, secs, cur =>
    match matchSectionDir l with
    | some nm => parseGo rest (secs ++ [cur]) ⟨nm, some l, []⟩
    | Option.none => parseGo rest secs { cur with content := cur.content ++ [l] }

/-- `AssemblerFile.__init__` on a list of lines. -/
def parseAssemblerFile (lines : List String) : List AssemblerSection :=
  parseGo lines [] ⟨"text", Option.none, []⟩

/-- Concatenation of a list of strings (the file contents as the lines
are written out one after the other). -/
def joinAll : List String → String
  | [] => ""
  | s :: rest => s ++ joinAll rest

/-- `AssemblerSection.write`: the tag line (when present) followed by the
content lines. -/
def writeSection (s : AssemblerSection) : String :=
  (s.tag.getD "") ++ joinAll s.content

/-- `AssemblerFile.write` to a file: concatenate the sections. -/
def writeAssemblerFile (secs : List AssemblerSection) : String :=
  joinAll (secs.map writeSection)

/-- Trailing newline characters stripped, for the "modulo trailing
newlines" comparison. -/
def stripTrailNl (s : String) : String :=
  String.mk (s.toList.reverse.dropWhile (fun c => c = '\n')).reverse

/-- Variant of the constructor loop that keeps the trailing section
unconditionally (the behaviour the round-trip law presupposes). -/
def parseGoAll : List String → List AssemblerSection → AssemblerSection →
    List AssemblerSection
  | [], secs, cur => secs ++ [cur]
  | l :: rest, secs, cur =>
    match matchSectionDir l with
    | some nm => parseGoAll rest (secs ++ [cur]) ⟨nm, some l, []⟩
    | Option.none => parseGoAll rest secs { cur with content := cur.content ++ [l] }

/-- The final current section at the end of the constructor loop. -/
def finalCur : List String → AssemblerSection → AssemblerSection
  | [], cur => cur
  | l :: rest, cur =>
    match matchSectionDir l with
    | some nm => finalCur rest ⟨nm, some l, []⟩
    | Option.none => finalCur rest { cur with content := cur.content ++ [l] }


/-- The input of the C4 scenario exactly as stated (no space after the
comma of the `.type` line). -/
def c4ClaimInput : List String :=
  [".globl foo\n", ".type foo,@object\n", "foo:\n", ".zero 17\n"]

/-- The C4 input with the whitespace the `.type` pattern requires. -/
def c4AmendInput : List String :=
  [".globl foo\n", ".type foo, @object\n", "foo:\n", ".zero 17\n"]

/-- The `.bss` lines the C4 scenario predicts. -/
def c4ClaimedBss : List String :=
  ["end:\n", ".balign 8\n", "aligned_end:\n", ".equ bss_start, aligned_end + 0x0\n",
   ".equ foo, bss_start + 0\n", ".equ bss_end, bss_start + 20\n"]

/-- A source with a single 130 MiB zero-initialized global. -/
def c3BigSections : List AssemblerSection :=
  [⟨"text", Option.none, [".globl big\n", ".type big, @object\n", "big:\n",
    ".zero 136314880\n"]⟩]

/-- The `generate_fake_bss` result on `c3BigSections`. -/
def c3BigResult : List AssemblerSection × List String × Int × Int × Bool :=
  ([⟨"text", Option.none, []⟩,
    ⟨".bss", Option.none,
      ["end:\n", ".balign 8\n", "aligned_end:\n",
       ".equ bss_start, aligned_end + 0x200000\n", ".equ big, bss_start + 0\n",
       ".equ bss_end, bss_start + 136314880\n"]⟩],
   ["end:\n", ".balign 8\n", "aligned_end:\n",
    ".equ bss_start, aligned_end + 0x200000\n", ".equ big, bss_start + 0\n",
    ".equ bss_end, bss_start + 136314880\n"],
   136314880, 2097152, true)


/-- The packing stage of `deconstruct`, depending only on the size and
value: `none` is the caught `ValueError`, `some none` the uncaught
packing error. -/
def deconCore (size : Nat) (value : Value) : Option (Option (List Nat)) :=
  match value with
  | .vlist l =>
      some (l.foldl (fun acc i =>
        match acc, deconstruct_single size i with
        | some a, some b => some (a ++ b)
        | _, _ => Option.none) (some []))
  | w =>
      match w.pyInt with
      | Option.none => Option.none
      | some i => some (deconstruct_single size i)

/-- Invariant of the variables in a deconstructed byte stream: the
variable reproduces itself under `deconstruct` (a one-byte fragment), and
its `original_size` is either inert (at most 1) or one of the widths
`reconstruct` can reassemble. -/
def Qvar (v : AssemblerVariable) : Prop :=
  v.deconstruct = DeconRes.bytes [v] ∧
  (v.original_size ≤ 1 ∨ v.original_size = 2 ∨ v.original_size = 4 ∨
    v.original_size = 8)

instance (v : AssemblerVariable) : Decidable (Qvar v) := by
  unfold Qvar
  infer_instance

/-- Concrete segments exercising `AssemblerSegment.merge`: each holds a
single zero byte, so the overlap is one byte. -/
def c2varA : AssemblerVariable :=
  ⟨.str "alpha", 1, .vint 0, .none, -1, [], []⟩

def c2varB : AssemblerVariable :=
  ⟨.str "beta", 1, .vint 0, .none, -1, [], []⟩

def c2segA : AssemblerSegment := ⟨"sa", Option.none, [c2varA]⟩

def c2segB : AssemblerSegment := ⟨"sb", Option.none, [c2varB]⟩

/-- The byte of `c2segA` after the overlap merge pulled in the label and
description data of `c2segB`'s byte. -/
def c2merged : AssemblerVariable :=
  ⟨.list ["alpha", "beta"], 1, .vint 0, .none, -1, [], []⟩

def c2segA2 : AssemblerSegment := ⟨"sa", Option.none, [c2merged]⟩

def c2segB2 : AssemblerSegment := ⟨"sb", Option.none, []⟩


/-- Length of the byte list carried by a `DeconRes`. -/
def bytesLen (r : DeconRes) : Nat :=
  match r with
  | DeconRes.bytes l => l.length
  | _ => 0


/-! ### Theorems -/

/-- C9 counterexample: `mergable` holds for two equal 4-byte variables, so
"true iff both have the same 1-byte size and the same numeric value"
fails at this input (the size is not 1). -/
theorem C9_counterexample :
    c9ex.mergable c9ex = true ∧
    ¬ (c9ex.mergable c9ex = true ↔
        c9ex.size = 1 ∧ c9ex.size = 1 ∧ c9ex.value = c9ex.value) := by
  decide

/-- C9 (amended): `mergable` returns true iff the two variables have the
same size (of any width) and equal values. -/
theorem C9_mergable_iff (a b : AssemblerVariable) :
    a.mergable b = true ↔ a.size = b.size ∧ a.value = b.value := by
  simp [AssemblerVariable.mergable]

/-- C7 counterexample: the SDBM hash of "glClear" is 0x1fd92088, not the
0xb64ff5c6 stated by the claim. -/
theorem C7_counterexample :
    sdbm_hash "glClear".toList = 0x1fd92088 ∧
    ¬ (sdbm_hash "glClear".toList = 0xb64ff5c6) := by
  decide

/-- C7 (amended): the hash follows the SDBM recurrence
`h := (h * 65599 + c) mod 2^32` byte by byte, and in particular hashes
"glClear" to 0x1fd92088, "" to 0 and "malloc" to 0x03f31de8. -/
theorem C7_sdbm_hash :
    (∀ l c, sdbm_hash (l ++ [c]) = (sdbm_hash l * 65599 + c.toNat) % 2 ^ 32) ∧
    sdbm_hash "glClear".toList = 0x1fd92088 ∧
    sdbm_hash "".toList = 0 ∧
    sdbm_hash "malloc".toList = 0x03f31de8 := by
  refine ⟨fun l c => ?_, by decide, by decide, by decide⟩
  show List.foldl _ _ _ = _
  rw [List.foldl_append]
  norm_num [sdbm_hash]

theorem remove_label_pre_sizeValue (v : AssemblerVariable) (n : String) :
    sizeValue (v.remove_label_pre n) = sizeValue v := rfl

theorem remove_label_post_sizeValue (v : AssemblerVariable) (n : String) :
    sizeValue (v.remove_label_post n) = sizeValue v := rfl

theorem modifyLast_map_sizeValue (f : AssemblerVariable → AssemblerVariable)
    (hf : ∀ v, sizeValue (f v) = sizeValue v) :
    ∀ l : List AssemblerVariable, (modifyLast f l).map sizeValue = l.map sizeValue
  | [] => rfl
  | [x] => by simp [modifyLast, hf]
  | x :: y :: xs => by
      simp only [modifyLast, List.map_cons]
      rw [show (modifyLast f (y :: xs)).map sizeValue = (y :: xs).map sizeValue from
        modifyLast_map_sizeValue f hf (y :: xs)]
      simp

theorem refresh_name_label_sizeValue (s : AssemblerSegment) :
    s.refresh_name_label.data.map sizeValue = s.data.map sizeValue := by
  unfold AssemblerSegment.refresh_name_label
  split
  next heq =>
    simp only [List.map_eq_nil_iff] at heq
    simp [heq]
  next x t heq =>
    have h2 : s.data.map sizeValue = (x :: t).map sizeValue := by
      rw [← heq, List.map_map]
      rfl
    simp only [h2, List.map_cons]
    rfl

theorem refresh_name_end_label_sizeValue (s : AssemblerSegment) :
    s.refresh_name_end_label.data.map sizeValue = s.data.map sizeValue := by
  unfold AssemblerSegment.refresh_name_end_label
  simp only
  rw [modifyLast_map_sizeValue
    (fun v => { v with label_post := v.label_post ++ [s.name ++ "_end"] })
    (fun v => rfl), List.map_map]
  rfl

theorem add_data_sizeValue (s : AssemblerSegment) (d : String) (sz : Nat) (val : Value) :
    (s.add_data d sz val).data.map sizeValue = s.data.map sizeValue ++ [(sz, val)] := by
  unfold AssemblerSegment.add_data
  rw [refresh_name_end_label_sizeValue, refresh_name_label_sizeValue]
  simp [sizeValue]

theorem foldl_add_data_sizeValue (n : Nat) (s : AssemblerSegment) :
    ((List.range n).foldl (fun t (ii : Nat) => t.add_data "" 4 (.vint (ii : Int))) s).data.map
        sizeValue =
      s.data.map sizeValue ++ (List.range n).map hashWord := by
  induction n generalizing s with
  | zero => simp
  | succ m ih =>
      rw [List.range_succ, List.foldl_append]
      simp only [List.foldl_cons, List.foldl_nil]
      rw [add_data_sizeValue, ih, List.map_append]
      simp [hashWord]

/-- C6 counterexample: for one UND symbol the generated words are
nbucket = 1, nchain = 2, bucket0 = 1, chain0 = 0 and chain1 = 0; the
claim's `chain i = i` predicts chain1 = 1 and fails. -/
theorem C6_counterexample :
    (hashSegEx.add_hash ["environ"]).data.map sizeValue =
      [(4, .vint 1), (4, .vint 2), (4, .vint 1), (4, .vint 0), (4, .vint 0)] ∧
    ¬ ((hashSegEx.add_hash ["environ"]).data.map sizeValue =
      [(4, .vint 1), (4, .vint 2), (4, .vint 1), (4, .vint 0), (4, .vint 1)]) := by
  decide

/-- C6 (amended): for n ≥ 1 UND symbols the DT_HASH segment data is the
4-byte words nbucket = 1, nchain = n+1, bucket0 = n, chain0 = 0 followed
by chain i = i - 1 for i in 1..n (the values 0..n-1). -/
theorem C6_add_hash (s : AssemblerSegment) (lst : List String) (h : lst ≠ []) :
    (s.add_hash lst).data.map sizeValue =
      [hashWord 1, hashWord (lst.length + 1), hashWord lst.length, hashWord 0] ++
      (List.range lst.length).map hashWord := by
  unfold AssemblerSegment.add_hash
  have hlen : 0 < lst.length := List.length_pos.mpr h
  rw [if_pos (by omega)]
  rw [foldl_add_data_sizeValue]
  rw [add_data_sizeValue, add_data_sizeValue, add_data_sizeValue, add_data_sizeValue]
  simp [hashWord]

/-- C6 witness: the amended statement at one concrete symbol list. -/
theorem C6_add_hash_witness :
    (["environ"] : List String) ≠ [] ∧
    (hashSegEx.add_hash ["environ"]).data.map sizeValue =
      [hashWord 1, hashWord 2, hashWord 1, hashWord 0] ++
      (List.range 1).map hashWord :=
  ⟨by decide, C6_add_hash hashSegEx ["environ"] (by decide)⟩

theorem chrVal_mod (e : Int) : chrVal (.vint (e % 256)) = some (e % 256).toNat := by
  simp only [chrVal]
  rw [if_pos (by omega)]

theorem reconLoop_nil (self : AssemblerVariable) (os : Int) (ii : Nat) (acc : List Nat) :
    reconLoop self os [] ii acc = (self, .ok acc) := rfl

theorem reconLoop_cons_plain (self : AssemblerVariable) (os : Int)
    (op : AssemblerVariable) (rest : List AssemblerVariable) (ii : Nat) (acc : List Nat)
    (b : Nat) (hn : op.name = Lval.none) (hlp : op.label_pre = [])
    (hpo : op.label_post = []) (hd : op.desc = Lval.str "") (hos : op.original_size = -1)
    (hc : chrVal op.value = some b) :
    reconLoop self os (op :: rest) ii acc = reconLoop self os rest (ii + 1) (acc ++ [b]) := by
  conv_lhs => unfold reconLoop
  simp [hn, hlp, hpo, hd, hos, hc, Lval.truthy]

theorem reconLoop_last (self : AssemblerVariable) (os : Int)
    (op : AssemblerVariable) (rest : List AssemblerVariable) (ii : Nat) (acc : List Nat)
    (b : Nat) (hn : op.name = Lval.none) (hlp : op.label_pre = [])
    (hii : (ii : Int) = os - 2) (hd : op.desc = Lval.str "")
    (hos : op.original_size = -1) (hc : chrVal op.value = some b) :
    reconLoop self os (op :: rest) ii acc =
      reconLoop (if op.label_post = [] then self
        else { self with label_post := self.label_post ++ op.label_post })
        os rest (ii + 1) (acc ++ [b]) := by
  conv_lhs => unfold reconLoop
  simp only [hn, hlp, hd, hos, hc, Lval.truthy, hii]
  split_ifs with h1 h2 h3 <;> simp_all

theorem reconLoop_cons_plain2 (self : AssemblerVariable) (os : Int)
    (op : AssemblerVariable) (rest : List AssemblerVariable) (ii : Nat) (acc : List Nat)
    (hn : op.name = Lval.none) (hlp : op.label_pre = [])
    (hpo : op.label_post = []) (hd : op.desc = Lval.str "") (hos : op.original_size = -1)
    (hc : (chrVal op.value).isSome = true) :
    reconLoop self os (op :: rest) ii acc =
      reconLoop self os rest (ii + 1) (acc ++ [(chrVal op.value).getD 0]) := by
  obtain ⟨b, hb⟩ := Option.isSome_iff_exists.mp hc
  rw [reconLoop_cons_plain self os op rest ii acc b hn hlp hpo hd hos hb, hb]
  rfl

theorem reconLoop_last2 (self : AssemblerVariable) (os : Int)
    (op : AssemblerVariable) (rest : List AssemblerVariable) (ii : Nat) (acc : List Nat)
    (hn : op.name = Lval.none) (hlp : op.label_pre = [])
    (hii : (ii : Int) = os - 2) (hd : op.desc = Lval.str "") (hos : op.original_size = -1)
    (hc : (chrVal op.value).isSome = true) :
    reconLoop self os (op :: rest) ii acc =
      reconLoop (if op.label_post = [] then self
        else { self with label_post := self.label_post ++ op.label_post })
        os rest (ii + 1) (acc ++ [(chrVal op.value).getD 0]) := by
  obtain ⟨b, hb⟩ := Option.isSome_iff_exists.mp hc
  rw [reconLoop_last self os op rest ii acc b hn hlp hii hd hos hb, hb]
  rfl

theorem chrVal_castMod (x : Nat) :
    chrVal (.vint ((x % 256 : Nat) : Int)) = some (x % 256) := by
  simp only [chrVal]
  rw [if_pos (by omega)]
  rw [Int.toNat_natCast]

theorem roundTrip1 (d nm : Lval) (lp lpo : List String) (i : Int)
    (h0 : 0 ≤ i) (hlt : i < 2 ^ 8) :
    roundTrip ⟨d, 1, .vint i, nm, -1, lp, lpo⟩ =
      some ⟨d, 1, .vint i, nm, -1, lp, lpo⟩ := by
  unfold roundTrip AssemblerVariable.deconstruct
  simp only [Value.pyInt]
  unfold deconstruct_single
  rw [if_pos rfl, if_pos (⟨h0, by omega⟩ : (0:Int) ≤ i ∧ i < 256)]
  norm_num [AssemblerVariable.reconstruct]

theorem roundTrip2 (d nm : Lval) (lp lpo : List String) (i : Int)
    (h0 : 0 ≤ i) (hlt : i < 2 ^ 16) :
    roundTrip ⟨d, 2, .vint i, nm, -1, lp, lpo⟩ =
      some ⟨d, 2, .vint i, nm, -1, lp, lpo⟩ := by
  have hds : deconstruct_single 2 i =
      some [(i % 2 ^ 16).toNat % 256, (i % 2 ^ 16).toNat / 256 % 256] := by
    unfold deconstruct_single
    rw [if_neg (by norm_num : ¬ ((2:Nat) = 1)),
      if_pos (show -(2:Int) ^ 15 ≤ i ∧ i < 2 ^ 16 by omega)]
    unfold leBytes
    norm_num [List.range_succ]
  unfold roundTrip
  unfold AssemblerVariable.deconstruct
  simp only [Value.pyInt, hds]
  generalize hg : (i % 2 ^ 16).toNat = u
  have hui : (u : Int) = i := by omega
  have hu : u < 2 ^ 16 := by omega
  simp only [mkByteVars, List.enum, List.enumFrom, List.map_cons, List.map_nil,
    List.length_cons, List.length_nil, Nat.reduceAdd, reduceIte, Nat.reduceSub,
    Nat.reduceLeDiff, Nat.reduceEqDiff, Nat.reducePow]
  unfold AssemblerVariable.reconstruct
  simp only [Nat.cast_ofNat, Nat.cast_one, Nat.cast_zero]
  simp only [List.length_cons, List.length_nil, Nat.reduceAdd, Int.reduceSub,
    Int.reduceToNat, reduceIte]
  simp only [Nat.cast_ofNat, Nat.cast_one, Nat.cast_zero, Int.reduceLE, Int.reduceLT,
    reduceIte, List.take_succ_cons, List.take_zero, chrVal_castMod, or_true, true_or,
    if_true]
  simp only [reconLoop_last2, chrVal_castMod, Option.isSome_some, Option.getD_some,
    Nat.cast_zero, Int.reduceSub]
  rw [reconLoop_nil]
  split_ifs with hlpo
  · subst hlpo
    show some _ = _
    simp only [Option.some.injEq, AssemblerVariable.mk.injEq, Value.vint.injEq,
      bytesToNat, List.foldr, List.cons_append, List.nil_append,
      eq_self_iff_true, and_true, true_and]
    rw [← hui, Nat.cast_inj]
    omega
  · show some _ = _
    simp only [Option.some.injEq, AssemblerVariable.mk.injEq, Value.vint.injEq,
      bytesToNat, List.foldr, List.cons_append, List.nil_append,
      eq_self_iff_true, and_true, true_and]
    rw [← hui, Nat.cast_inj]
    omega

theorem roundTrip4 (d nm : Lval) (lp lpo : List String) (i : Int)
    (h0 : 0 ≤ i) (hlt : i < 2 ^ 32) :
    roundTrip ⟨d, 4, .vint i, nm, -1, lp, lpo⟩ =
      some ⟨d, 4, .vint i, nm, -1, lp, lpo⟩ := by
  have hds : deconstruct_single 4 i = some
      [(i % 2 ^ 32).toNat % 256, (i % 2 ^ 32).toNat / 256 % 256,
       (i % 2 ^ 32).toNat / 256 ^ 2 % 256, (i % 2 ^ 32).toNat / 256 ^ 3 % 256] := by
    unfold deconstruct_single
    rw [if_neg (by norm_num : ¬ ((4:Nat) = 1)), if_neg (by norm_num : ¬ ((4:Nat) = 2)),
      if_pos (show -(2:Int) ^ 31 ≤ i ∧ i < 2 ^ 32 by omega)]
    unfold leBytes
    norm_num [List.range_succ]
  unfold roundTrip
  unfold AssemblerVariable.deconstruct
  simp only [Value.pyInt, hds]
  generalize hg : (i % 2 ^ 32).toNat = u
  have hui : (u : Int) = i := by omega
  have hu : u < 2 ^ 32 := by omega
  simp only [mkByteVars, List.enum, List.enumFrom, List.map_cons, List.map_nil,
    List.length_cons, List.length_nil, Nat.reduceAdd, reduceIte, Nat.reduceSub,
    Nat.reduceLeDiff, Nat.reduceEqDiff, Nat.reducePow]
  unfold AssemblerVariable.reconstruct
  simp only [Nat.cast_ofNat]
  simp only [List.length_cons, List.length_nil, Nat.reduceAdd, Int.reduceSub,
    Int.reduceToNat, reduceIte]
  simp only [Nat.cast_ofNat, Nat.cast_one, Nat.cast_zero, Int.reduceLE, Int.reduceLT,
    reduceIte, List.take_succ_cons, List.take_zero, chrVal_castMod, or_true, true_or,
    if_true]
  simp only [reconLoop_cons_plain2, chrVal_castMod, Option.isSome_some, Option.getD_some]
  simp only [reconLoop_last2, chrVal_castMod, Option.isSome_some, Option.getD_some,
    Nat.reduceAdd, Nat.cast_ofNat, Int.reduceSub]
  rw [reconLoop_nil]
  split_ifs with hlpo
  · subst hlpo
    show some _ = _
    simp only [Option.some.injEq, AssemblerVariable.mk.injEq, Value.vint.injEq,
      bytesToNat, List.foldr, List.cons_append, List.nil_append,
      eq_self_iff_true, and_true, true_and]
    rw [← hui, Nat.cast_inj]
    omega
  · show some _ = _
    simp only [Option.some.injEq, AssemblerVariable.mk.injEq, Value.vint.injEq,
      bytesToNat, List.foldr, List.cons_append, List.nil_append,
      eq_self_iff_true, and_true, true_and]
    rw [← hui, Nat.cast_inj]
    omega

theorem roundTrip8 (d nm : Lval) (lp lpo : List String) (i : Int)
    (h0 : 0 ≤ i) (hlt : i < 2 ^ 64) :
    roundTrip ⟨d, 8, .vint i, nm, -1, lp, lpo⟩ =
      some ⟨d, 8, .vint i, nm, -1, lp, lpo⟩ := by
  have hds : deconstruct_single 8 i = some
      [(i % 2 ^ 64).toNat % 256, (i % 2 ^ 64).toNat / 256 % 256,
       (i % 2 ^ 64).toNat / 256 ^ 2 % 256, (i % 2 ^ 64).toNat / 256 ^ 3 % 256,
       (i % 2 ^ 64).toNat / 256 ^ 4 % 256, (i % 2 ^ 64).toNat / 256 ^ 5 % 256,
       (i % 2 ^ 64).toNat / 256 ^ 6 % 256, (i % 2 ^ 64).toNat / 256 ^ 7 % 256] := by
    unfold deconstruct_single
    rw [if_neg (by norm_num : ¬ ((8:Nat) = 1)), if_neg (by norm_num : ¬ ((8:Nat) = 2)),
      if_neg (by norm_num : ¬ ((8:Nat) = 4)),
      if_pos (show -(2:Int) ^ 63 ≤ i ∧ i < 2 ^ 64 by omega)]
    unfold leBytes
    norm_num [List.range_succ]
  unfold roundTrip
  unfold AssemblerVariable.deconstruct
  simp only [Value.pyInt, hds]
  generalize hg : (i % 2 ^ 64).toNat = u
  have hui : (u : Int) = i := by omega
  have hu : u < 2 ^ 64 := by omega
  simp only [mkByteVars, List.enum, List.enumFrom, List.map_cons, List.map_nil,
    List.length_cons, List.length_nil, Nat.reduceAdd, reduceIte, Nat.reduceSub,
    Nat.reduceLeDiff, Nat.reduceEqDiff, Nat.reducePow]
  unfold AssemblerVariable.reconstruct
  simp only [Nat.cast_ofNat]
  simp only [List.length_cons, List.length_nil, Nat.reduceAdd, Int.reduceSub,
    Int.reduceToNat, reduceIte]
  simp only [Nat.cast_ofNat, Nat.cast_one, Nat.cast_zero, Int.reduceLE, Int.reduceLT,
    reduceIte, List.take_succ_cons, List.take_zero, chrVal_castMod, or_true, true_or,
    if_true]
  simp only [reconLoop_cons_plain2, chrVal_castMod, Option.isSome_some, Option.getD_some]
  simp only [reconLoop_last2, chrVal_castMod, Option.isSome_some, Option.getD_some,
    Nat.reduceAdd, Nat.cast_ofNat, Int.reduceSub]
  rw [reconLoop_nil]
  split_ifs with hlpo
  · subst hlpo
    show some _ = _
    simp only [Option.some.injEq, AssemblerVariable.mk.injEq, Value.vint.injEq,
      bytesToNat, List.foldr, List.cons_append, List.nil_append,
      eq_self_iff_true, and_true, true_and]
    rw [← hui, Nat.cast_inj]
    omega
  · show some _ = _
    simp only [Option.some.injEq, AssemblerVariable.mk.injEq, Value.vint.injEq,
      bytesToNat, List.foldr, List.cons_append, List.nil_append,
      eq_self_iff_true, and_true, true_and]
    rw [← hui, Nat.cast_inj]
    omega

/-- C1 counterexample: a 2-byte variable with the integer value -1 is
deconstructed with signed packing but reconstructed with unsigned
unpacking, so the round trip yields the value 65535, not -1. -/
theorem C1_counterexample :
    c1negEx.value = Value.vint (-1) ∧ c1negEx.size = 2 ∧
    (roundTrip c1negEx).map AssemblerVariable.value = some (Value.vint 65535) ∧
    ¬ ((roundTrip c1negEx).map AssemblerVariable.value = some c1negEx.value) := by
  decide

/-- C1 (amended): for a variable holding a single non-negative integer
value that fits in its size (1, 2, 4 or 8 bytes) and whose
`original_size` sentinel is unset, deconstructing into the little-endian
byte stream and reconstructing from that stream yields the variable back
with the same value, size, name, description and label sets. -/
theorem C1_roundTrip (v : AssemblerVariable) (i : Int)
    (hv : v.value = .vint i) (hos : v.original_size = -1)
    (hs : v.size = 1 ∨ v.size = 2 ∨ v.size = 4 ∨ v.size = 8)
    (h0 : 0 ≤ i) (hlt : i < 2 ^ (8 * v.size)) :
    roundTrip v = some v := by
  obtain ⟨d, s, val, nm, os, lp, lpo⟩ := v
  dsimp only at hv hos hs hlt
  subst hv
  subst hos
  rcases hs with rfl | rfl | rfl | rfl
  · exact roundTrip1 d nm lp lpo i h0 (by norm_num at hlt ⊢; omega)
  · exact roundTrip2 d nm lp lpo i h0 (by norm_num at hlt ⊢; omega)
  · exact roundTrip4 d nm lp lpo i h0 (by norm_num at hlt ⊢; omega)
  · exact roundTrip8 d nm lp lpo i h0 (by norm_num at hlt ⊢; omega)

/-- C1 witness: the amended round trip at a concrete 4-byte variable with
labels and a name. -/
theorem C1_roundTrip_witness :
    c1posEx.value = Value.vint 305419896 ∧ c1posEx.original_size = -1 ∧
    (c1posEx.size = 1 ∨ c1posEx.size = 2 ∨ c1posEx.size = 4 ∨ c1posEx.size = 8) ∧
    (0:Int) ≤ 305419896 ∧ (305419896:Int) < 2 ^ (8 * c1posEx.size) ∧
    roundTrip c1posEx = some c1posEx :=
  ⟨rfl, rfl, by decide, by decide, by decide,
    C1_roundTrip c1posEx 305419896 rfl rfl (by decide) (by decide) (by decide)⟩

/-- C5: entry-prologue excision on amd64 deletes the three `pushq`
lines and rewrites the `sub` immediate by the cumulative push widths
(40 + 3*8 = 64), and a `xor` line inside the push run is reinstated
rather than deleted. -/
theorem C5_crunch_entry_push :
    crunch_entry_push ["_start:\n", " pushq %rbx\n", " pushq %rbp\n", " pushq %r12\n",
        " subq $40, %rsp\n"] =
      some ["_start:\n", " subq $64, %rsp\n"] ∧
    crunch_entry_push ["_start:\n", " pushq %rbx\n", " xorl %ebp, %ebp\n",
        " pushq %rbp\n", " pushq %r12\n", " subq $40, %rsp\n"] =
      some ["_start:\n", " xorl %ebp, %ebp\n", " subq $64, %rsp\n"] := by
  decide

/-- C4 counterexample: on the claim's own input the `.type foo,@object`
line (no whitespace after the comma) does not match the extractor's
pattern `,\s+@object`, so no object is extracted at all and the
generated `.bss` section differs from the claimed lines (which are
also wrong about `0x0` and about the rounded total 20). -/
theorem C4_counterexample :
    (generate_fake_bss [⟨"text", Option.none, c4ClaimInput⟩]).map (fun r => r.2.1) =
      some ["end:\n", ".balign 8\n", "aligned_end:\n",
        ".equ bss_start, aligned_end + 0\n", ".equ bss_end, bss_start + 0\n"] ∧
    ¬ ((generate_fake_bss [⟨"text", Option.none, c4ClaimInput⟩]).map (fun r => r.2.1) =
      some c4ClaimedBss) := by
  decide

/-- C4 (amended): with `.type foo, @object` the construction yields
`end:`, `.balign 8`, `aligned_end:`, `.equ bss_start, aligned_end + 0`,
`.equ foo, bss_start + 0` and `.equ bss_end, bss_start + 17` (the
4-byte rounding affects only the offset of a following object, not the
emitted total). -/
theorem C4_fake_bss :
    (generate_fake_bss [⟨"text", Option.none, c4AmendInput⟩]).map (fun r => r.2.1) =
      some ["end:\n", ".balign 8\n", "aligned_end:\n",
        ".equ bss_start, aligned_end + 0\n", ".equ foo, bss_start + 0\n",
        ".equ bss_end, bss_start + 17\n"] := by
  decide

/-- C3: `generate_fake_bss` returns true exactly when the total
extracted `.bss` size (the emitted `bss_end - bss_start` extent) exceeds
128 MiB; in that case `bss_offset` is the platform memory page 0x200000
and `phdr_count` is overridden to 4 with two PT_LOAD segments, otherwise
`bss_offset` is 0 and `phdr_count` stays 3 with a single PT_LOAD. -/
theorem C3_generate_fake_bss (sections : List AssemblerSection)
    (r : List AssemblerSection × List String × Int × Int × Bool)
    (h : generate_fake_bss sections = some r) :
    (r.2.2.2.2 = true ↔ 128 * 1048576 < r.2.2.1) ∧
    r.2.2.2.1 = (if r.2.2.2.2 then 2097152 else 0) ∧
    r.2.1.getLast? = some (".equ bss_end, bss_start + " ++ toString r.2.2.1 ++ "\n") ∧
    phdr_count_after r.2.2.2.2 = (if r.2.2.2.2 then 4 else 3) ∧
    load_segment_count r.2.2.2.2 = (if r.2.2.2.2 then 2 else 1) := by
  unfold generate_fake_bss at h
  rcases hg : generate_fake_bss.gfbGo sections (0, 0, []) with _ | ⟨secs2, st⟩
  · rw [hg] at h
    exact absurd h (by simp)
  · rw [hg] at h
    obtain ⟨_, size, elems⟩ := st
    simp only [Option.some.injEq] at h
    subst h
    dsimp only
    refine ⟨by simp, rfl, ?_, ?_, ?_⟩
    · exact List.getLast?_concat _
    · simp [phdr_count_after]
    · simp [load_segment_count]

/-- C3 witness: one 130 MiB object triggers the second PT_LOAD. -/
theorem C3_generate_fake_bss_witness :
    generate_fake_bss c3BigSections = some c3BigResult ∧
    ((c3BigResult.2.2.2.2 = true ↔ 128 * 1048576 < c3BigResult.2.2.1) ∧
     c3BigResult.2.2.2.1 = (if c3BigResult.2.2.2.2 then 2097152 else 0) ∧
     c3BigResult.2.1.getLast? =
       some (".equ bss_end, bss_start + " ++ toString c3BigResult.2.2.1 ++ "\n") ∧
     phdr_count_after c3BigResult.2.2.2.2 = (if c3BigResult.2.2.2.2 then 4 else 3) ∧
     load_segment_count c3BigResult.2.2.2.2 =
       (if c3BigResult.2.2.2.2 then 2 else 1)) :=
  ⟨by decide, C3_generate_fake_bss c3BigSections c3BigResult (by decide)⟩

theorem joinAll_append (a b : List String) :
    joinAll (a ++ b) = joinAll a ++ joinAll b := by
  induction a with
  | nil => simp [joinAll, String.empty_append]
  | cons s t ih => simp [joinAll, ih, String.append_assoc]

theorem parseGo_write (lines : List String) :
    ∀ secs cur, (finalCur lines cur).content = [] →
      writeAssemblerFile (parseGo lines secs cur) =
        writeAssemblerFile secs ++ (writeSection cur ++ joinAll lines) := by
  induction lines with
  | nil =>
    intro secs cur h
    simp only [finalCur] at h
    have he : cur.empty = false := by
      simp [AssemblerSection.empty, h]
    simp only [parseGo, he, if_pos]
    simp [writeAssemblerFile, List.map_append, joinAll_append, joinAll,
      String.append_empty]
  | cons l rest ih =>
    intro secs cur h
    simp only [finalCur] at h
    cases hms : matchSectionDir l with
    | some nm =>
      simp only [hms] at h
      simp only [parseGo, hms]
      rw [ih (secs ++ [cur]) ⟨nm, some l, []⟩ h]
      simp [writeAssemblerFile, List.map_append, joinAll_append, joinAll,
        writeSection, String.append_empty, String.append_assoc]
    | none =>
      simp only [hms] at h
      simp only [parseGo, hms]
      rw [ih secs { cur with content := cur.content ++ [l] } h]
      simp [writeSection, joinAll_append, joinAll, String.append_empty,
        String.append_assoc]

/-- C8 counterexample: the single line `hello` forms a nonempty trailing
section, which the constructor drops; the rewritten file is empty while
the input, trailing newlines stripped, is `hello`. -/
theorem C8_counterexample :
    stripTrailNl (writeAssemblerFile (parseAssemblerFile ["hello\n"])) ≠
      stripTrailNl (joinAll ["hello\n"]) := by
  decide

/-- C8 (amended): parsing a file into sections and writing them back out
reproduces the file exactly, provided the loop ends with an empty
current section (no stray lines after the last `.section` directive);
otherwise those trailing lines are silently dropped. -/
theorem C8_roundtrip (lines : List String)
    (h : (finalCur lines ⟨"text", Option.none, []⟩).content = []) :
    writeAssemblerFile (parseAssemblerFile lines) = joinAll lines := by
  unfold parseAssemblerFile
  rw [parseGo_write lines [] ⟨"text", Option.none, []⟩ h]
  simp [writeAssemblerFile, joinAll, writeSection, String.empty_append]

/-- C8 witness: a file whose last line is a `.section` directive
round-trips byte-identically. -/
theorem C8_roundtrip_witness :
    (finalCur ["x\n", "  .section .rodata\n"]
        ⟨"text", Option.none, []⟩).content = [] ∧
    writeAssemblerFile (parseAssemblerFile ["x\n", "  .section .rodata\n"]) =
      joinAll ["x\n", "  .section .rodata\n"] :=
  ⟨by decide, C8_roundtrip _ (by decide)⟩

theorem parseGo_parseGoAll (lines : List String) :
    ∀ secs cur, parseGo lines secs cur =
      if (finalCur lines cur).content = [] then parseGoAll lines secs cur
      else (parseGoAll lines secs cur).dropLast := by
  induction lines with
  | nil =>
    intro secs cur
    simp only [parseGo, parseGoAll, finalCur, AssemblerSection.empty]
    by_cases hc : cur.content = []
    · simp [List.isEmpty_iff, hc]
    · simp [List.isEmpty_iff, hc, List.dropLast_concat]
  | cons l rest ih =>
    intro secs cur
    cases hms : matchSectionDir l with
    | some nm =>
      simp only [parseGo, parseGoAll, finalCur, hms]
      exact ih _ _
    | none =>
      simp only [parseGo, parseGoAll, finalCur, hms]
      exact ih _ _

/-- C10: sections closed by a later `.section` directive are always kept
(the run keeping every section differs from the real one only in the
trailing section), `empty()` returns false exactly when the content list
is empty, and the trailing section survives if and only if its content
list is empty, so the lines of a nonempty trailing section are dropped. -/
theorem C10_trailing_section :
    (∀ s : AssemblerSection, s.empty = false ↔ s.content = []) ∧
    ∀ lines : List String,
      parseAssemblerFile lines =
        if (finalCur lines ⟨"text", Option.none, []⟩).content = []
        then parseGoAll lines [] ⟨"text", Option.none, []⟩
        else (parseGoAll lines [] ⟨"text", Option.none, []⟩).dropLast := by
  constructor
  · intro s
    unfold AssemblerSection.empty
    cases hc : s.content <;> simp
  · intro lines
    unfold parseAssemblerFile
    exact parseGo_parseGoAll lines [] _

theorem deconstruct_eq (v : AssemblerVariable) :
    v.deconstruct = match deconCore v.size v.value with
      | Option.none => DeconRes.halt
      | some Option.none => DeconRes.crash
      | some (some lst) =>
          if lst.length ≤ 1 then DeconRes.bytes [v]
          else DeconRes.bytes (mkByteVars v lst) := by
  unfold AssemblerVariable.deconstruct deconCore
  cases v.value <;> rfl

theorem deconCore_none_any (sz sz' : Nat) (w : Value) (h : deconCore sz w = Option.none) :
    deconCore sz' w = Option.none := by
  unfold deconCore at h ⊢
  cases w with
  | vint i => simp [Value.pyInt] at h
  | vstr s =>
    simp only [Value.pyInt] at h ⊢
    cases hp : pyParseInt s with
    | none => rfl
    | some i => rw [hp] at h; simp at h
  | vlist l => simp at h

theorem chrVal_none_of_halt (v : AssemblerVariable)
    (h : v.deconstruct = DeconRes.halt) : chrVal v.value = Option.none := by
  rw [deconstruct_eq] at h
  rcases hc : deconCore v.size v.value with _ | ⟨_ | lst⟩ <;> rw [hc] at h
  · unfold deconCore at hc
    cases hv : v.value with
    | vint i => rw [hv] at hc; simp [Value.pyInt] at hc
    | vstr s => rfl
    | vlist l => rw [hv] at hc; simp at hc
  · simp at h
  · simp only [] at h; split at h <;> simp at h

theorem leBytes_length (n u : Nat) : (leBytes n u).length = n := by
  simp [leBytes]

theorem leBytes_lt (n u : Nat) : ∀ b ∈ leBytes n u, b < 256 := by
  intro b hb
  simp only [leBytes, List.mem_map, List.mem_range] at hb
  obtain ⟨i, _, rfl⟩ := hb
  exact Nat.mod_lt _ (by norm_num)

theorem leBytes_succ (n u : Nat) :
    leBytes (n + 1) u = u % 256 :: leBytes n (u / 256) := by
  unfold leBytes
  rw [List.range_succ_eq_map, List.map_cons, List.map_map]
  refine congrArg₂ _ (by simp) ?_
  refine List.map_congr_left ?_
  intro i _
  show u / 256 ^ (i + 1) % 256 = u / 256 / 256 ^ i % 256
  rw [Nat.div_div_eq_div_mul, pow_succ, Nat.mul_comm (256 ^ i) 256,
    Nat.mul_comm 256 (256 ^ i)]

theorem leBytes_bytesToNat : ∀ l : List Nat, (∀ b ∈ l, b < 256) →
    leBytes l.length (bytesToNat l) = l := by
  intro l
  induction l with
  | nil => intro _; rfl
  | cons b t ih =>
    intro hb
    have hblt : b < 256 := hb b (List.mem_cons_self _ _)
    have hbt : bytesToNat (b :: t) = b + 256 * bytesToNat t := rfl
    rw [List.length_cons, leBytes_succ, hbt]
    have h1 : (b + 256 * bytesToNat t) % 256 = b := by omega
    have h2 : (b + 256 * bytesToNat t) / 256 = bytesToNat t := by omega
    rw [h1, h2, ih fun x hx => hb x (List.mem_cons_of_mem _ hx)]

theorem bytesToNat_lt : ∀ l : List Nat, (∀ b ∈ l, b < 256) →
    bytesToNat l < 256 ^ l.length := by
  intro l
  induction l with
  | nil => intro _; norm_num [bytesToNat]
  | cons b t ih =>
    intro hb
    have hblt : b < 256 := hb b (List.mem_cons_self _ _)
    have h2 : bytesToNat t < 256 ^ t.length :=
      ih fun x hx => hb x (List.mem_cons_of_mem _ hx)
    have hbt : bytesToNat (b :: t) = b + 256 * bytesToNat t := rfl
    rw [hbt, List.length_cons, pow_succ, Nat.mul_comm (256 ^ t.length) 256]
    omega

theorem ds_spec (sz : Nat) (i : Int) (l : List Nat)
    (h : deconstruct_single sz i = some l) :
    l.length = sz ∧ (∀ b ∈ l, b < 256) ∧
      (sz = 1 ∨ sz = 2 ∨ sz = 4 ∨ sz = 8) := by
  unfold deconstruct_single at h
  split_ifs at h with h1 h2 h3 h4 h5 h6 h7 h8
  · obtain rfl : [i.toNat] = l := Option.some.inj h
    subst h1
    refine ⟨rfl, ?_, Or.inl rfl⟩
    intro b hb
    simp only [List.mem_singleton] at hb
    omega
  · obtain rfl : leBytes 2 (i % 2 ^ 16).toNat = l := Option.some.inj h
    subst h3
    exact ⟨leBytes_length _ _, leBytes_lt _ _, Or.inr (Or.inl rfl)⟩
  · obtain rfl : leBytes 4 (i % 2 ^ 32).toNat = l := Option.some.inj h
    subst h5
    exact ⟨leBytes_length _ _, leBytes_lt _ _, Or.inr (Or.inr (Or.inl rfl))⟩
  · obtain rfl : leBytes 8 (i % 2 ^ 64).toNat = l := Option.some.inj h
    subst h7
    exact ⟨leBytes_length _ _, leBytes_lt _ _, Or.inr (Or.inr (Or.inr rfl))⟩

theorem mkByteVars_length (v : AssemblerVariable) (l : List Nat) :
    (mkByteVars v l).length = l.length := by
  simp [mkByteVars]

theorem mkByteVars_sizeValue (v : AssemblerVariable) (l : List Nat) :
    (mkByteVars v l).map sizeValue =
      l.map fun (b : Nat) => (1, Value.vint (b : Int)) := by
  unfold mkByteVars
  rw [List.map_map]
  have h1 : l.enum.map (sizeValue ∘ fun p =>
      let base : AssemblerVariable :=
        { desc := .str "", size := 1, value := .vint p.2, name := .none }
      if p.1 = 0 then
        { base with desc := v.desc, name := v.name, original_size := (v.size : Int),
                    label_pre := v.label_pre }
      else if p.1 = l.length - 1 then
        { base with label_post := v.label_post }
      else base) =
      l.enum.map ((fun (b : Nat) => ((1 : Nat), Value.vint (b : Int))) ∘ Prod.snd) := by
    refine List.map_congr_left ?_
    intro p _
    simp only [Function.comp_apply]
    split_ifs <;> rfl
  rw [h1, ← List.map_map, List.enum_map_snd]


theorem deconstruct_eq_none (v : AssemblerVariable)
    (h : deconCore v.size v.value = Option.none) :
    v.deconstruct = DeconRes.halt := by
  rw [deconstruct_eq, h]

theorem deconstruct_eq_crash (v : AssemblerVariable)
    (h : deconCore v.size v.value = some Option.none) :
    v.deconstruct = DeconRes.crash := by
  rw [deconstruct_eq, h]

theorem deconstruct_eq_bytes (v : AssemblerVariable) (lst : List Nat)
    (h : deconCore v.size v.value = some (some lst)) :
    v.deconstruct =
      if lst.length ≤ 1 then DeconRes.bytes [v]
      else DeconRes.bytes (mkByteVars v lst) := by
  rw [deconstruct_eq, h]

theorem mkByteVars_mem (v : AssemblerVariable) (l : List Nat)
    (w : AssemblerVariable) (hw : w ∈ mkByteVars v l) :
    w.size = 1 ∧ (∃ b ∈ l, w.value = Value.vint (b : Int)) ∧
      (w.original_size = -1 ∨ w.original_size = (v.size : Int)) := by
  unfold mkByteVars at hw
  simp only [List.mem_map] at hw
  obtain ⟨p, hp, rfl⟩ := hw
  have hb : p.2 ∈ l := List.snd_mem_of_mem_enum hp
  split_ifs <;> exact ⟨rfl, ⟨p.2, hb, rfl⟩, by simp⟩

theorem selfBytes_congr (x y : AssemblerVariable)
    (hx : x.deconstruct = DeconRes.bytes [x]) (hs : y.size = x.size)
    (hv : y.value = x.value) : y.deconstruct = DeconRes.bytes [y] := by
  rcases hc : deconCore x.size x.value with _ | ⟨_ | lst⟩
  · rw [deconstruct_eq_none _ hc] at hx
    exact absurd hx (by simp)
  · rw [deconstruct_eq_crash _ hc] at hx
    exact absurd hx (by simp)
  · have hc' : deconCore y.size y.value = some (some lst) := by
      rw [hs, hv]; exact hc
    rw [deconstruct_eq_bytes _ _ hc] at hx
    rw [deconstruct_eq_bytes _ _ hc']
    by_cases hl : lst.length ≤ 1
    · rw [if_pos hl]
    · rw [if_neg hl] at hx
      exfalso
      have h2 := congrArg bytesLen hx
      simp only [bytesLen, mkByteVars_length, List.length_singleton] at h2
      omega

theorem halt_congr (x y : AssemblerVariable) (hx : x.deconstruct = DeconRes.halt)
    (hv : y.value = x.value) : y.deconstruct = DeconRes.halt := by
  rcases hc : deconCore x.size x.value with _ | ⟨_ | lst⟩
  · refine deconstruct_eq_none _ ?_
    rw [hv]
    exact deconCore_none_any x.size y.size _ hc
  · rw [deconstruct_eq_crash _ hc] at hx
    exact absurd hx (by simp)
  · rw [deconstruct_eq_bytes _ _ hc] at hx
    split_ifs at hx

theorem chrVal_spec (w : Value) (b : Nat) (h : chrVal w = some b) :
    w = Value.vint (b : Int) ∧ b < 256 := by
  cases w with
  | vint i =>
    simp only [chrVal] at h
    split_ifs at h with hr
    obtain rfl : i.toNat = b := Option.some.inj h
    refine ⟨?_, by omega⟩
    congr 1
    omega
  | vstr s => exact absurd h (by simp [chrVal])
  | vlist l => exact absurd h (by simp [chrVal])

theorem byteVar_selfBytes (w : AssemblerVariable) (b : Nat) (hs : w.size = 1)
    (hv : w.value = Value.vint (b : Int)) (hb : b < 256) :
    w.deconstruct = DeconRes.bytes [w] := by
  have h2 : deconstruct_single 1 (b : Int) = some [b] := by
    unfold deconstruct_single
    rw [if_pos rfl, if_pos (⟨by omega, by omega⟩ : (0:Int) ≤ (b:Int) ∧ (b:Int) < 256)]
    simp
  have hcc : deconCore w.size w.value = some (some [b]) := by
    rw [hs, hv]
    show some (deconstruct_single 1 (b : Int)) = some (some [b])
    rw [h2]
  rw [deconstruct_eq_bytes _ _ hcc]
  rfl

theorem size_one_of_chr (x : AssemblerVariable) (b : Nat)
    (hx : x.deconstruct = DeconRes.bytes [x]) (hb : chrVal x.value = some b) :
    x.size = 1 ∧ x.value = Value.vint (b : Int) := by
  obtain ⟨hval, hblt⟩ := chrVal_spec _ _ hb
  have hcc : deconCore x.size x.value =
      some (deconstruct_single x.size (b : Int)) := by
    rw [hval]
    rfl
  rcases hd : deconstruct_single x.size (b : Int) with _ | lst <;> rw [hd] at hcc
  · rw [deconstruct_eq_crash _ hcc] at hx
    exact absurd hx (by simp)
  · rw [deconstruct_eq_bytes _ _ hcc] at hx
    obtain ⟨hlen, _, hsz⟩ := ds_spec _ _ _ hd
    by_cases hl : lst.length ≤ 1
    · exact ⟨by omega, hval⟩
    · rw [if_neg hl] at hx
      exfalso
      have h2 := congrArg bytesLen hx
      simp only [bytesLen, mkByteVars_length, List.length_singleton] at h2
      omega

theorem packFold_spec (sz : Nat) (lst : List Nat) :
    ∀ (ll : List Int) (a : List Nat),
      (ll.foldl (fun acc i =>
        match acc, deconstruct_single sz i with
        | some x, some y => some (x ++ y)
        | _, _ => Option.none) (some a)) = some lst →
      (∀ b ∈ a, b < 256) →
      a.length ≤ lst.length ∧ (∀ b ∈ lst, b < 256) ∧
        (a.length < lst.length → sz = 1 ∨ sz = 2 ∨ sz = 4 ∨ sz = 8) := by
  intro ll
  induction ll with
  | nil =>
    intro a h hb
    obtain rfl : a = lst := Option.some.inj h
    exact ⟨le_refl _, hb, fun hlt => absurd hlt (by omega)⟩
  | cons i t ih =>
    intro a h hb
    rcases hd : deconstruct_single sz i with _ | y
    · rw [List.foldl_cons, hd] at h
      have hnone : ∀ (l' : List Int),
          (l'.foldl (fun acc i =>
            match acc, deconstruct_single sz i with
            | some x, some y => some (x ++ y)
            | _, _ => Option.none) Option.none) = Option.none := by
        intro l'
        induction l' with
        | nil => rfl
        | cons j t' ih' => simpa using ih'
      rw [hnone] at h
      exact absurd h (by simp)
    · rw [List.foldl_cons, hd] at h
      obtain ⟨hlen, hy, hsz⟩ := ds_spec _ _ _ hd
      have hb2 : ∀ b ∈ a ++ y, b < 256 := by
        intro b hmem
        rcases List.mem_append.mp hmem with hm | hm
        · exact hb b hm
        · exact hy b hm
      obtain ⟨h1, h2, _⟩ := ih (a ++ y) h hb2
      rw [List.length_append, hlen] at h1
      exact ⟨by omega, h2, fun _ => hsz⟩

theorem decon_out_Q (v : AssemblerVariable) (hos : v.original_size = -1)
    (l : List AssemblerVariable) (h : v.deconstruct = DeconRes.bytes l) :
    ∀ w ∈ l, Qvar w := by
  rcases hc : deconCore v.size v.value with _ | ⟨_ | lst⟩
  · rw [deconstruct_eq_none _ hc] at h
    exact absurd h (by simp)
  · rw [deconstruct_eq_crash _ hc] at h
    exact absurd h (by simp)
  · rw [deconstruct_eq_bytes _ _ hc] at h
    by_cases hl : lst.length ≤ 1
    · rw [if_pos hl] at h
      obtain rfl : [v] = l := DeconRes.bytes.inj h
      intro w hw
      obtain rfl : w = v := List.mem_singleton.mp hw
      refine ⟨?_, Or.inl (by rw [hos]; norm_num)⟩
      rw [deconstruct_eq_bytes _ _ hc, if_pos hl]
    · rw [if_neg hl] at h
      obtain rfl : mkByteVars v lst = l := DeconRes.bytes.inj h
      have hszb : (v.size = 1 ∨ v.size = 2 ∨ v.size = 4 ∨ v.size = 8) ∧
          ∀ b ∈ lst, b < 256 := by
        unfold deconCore at hc
        cases hval : v.value with
        | vint i =>
          rw [hval] at hc
          simp only [Value.pyInt] at hc
          rcases hd : deconstruct_single v.size i with _ | y <;> rw [hd] at hc
          · exact absurd hc (by simp)
          · obtain rfl : y = lst := Option.some.inj (Option.some.inj hc)
            obtain ⟨_, hy, hsz⟩ := ds_spec _ _ _ hd
            exact ⟨hsz, hy⟩
        | vstr s =>
          rw [hval] at hc
          simp only [Value.pyInt] at hc
          rcases hp : pyParseInt s with _ | i <;> rw [hp] at hc
          · exact absurd hc (by simp)
          · have hc2 : some (deconstruct_single v.size i) =
                some (some lst) := hc
            rcases hd : deconstruct_single v.size i with _ | y <;> rw [hd] at hc2
            · exact absurd hc2 (by simp)
            · obtain rfl : y = lst := Option.some.inj (Option.some.inj hc2)
              obtain ⟨_, hy, hsz⟩ := ds_spec _ _ _ hd
              exact ⟨hsz, hy⟩
        | vlist ll =>
          rw [hval] at hc
          have hfold := Option.some.inj hc
          obtain ⟨h1, h2, h3⟩ := packFold_spec v.size lst ll [] hfold (by simp)
          refine ⟨h3 ?_, h2⟩
          simp only [List.length_nil]
          omega
      intro w hw
      obtain ⟨hw1, ⟨b, hbmem, hwv⟩, hwos⟩ := mkByteVars_mem v lst w hw
      refine ⟨byteVar_selfBytes w b hw1 hwv (hszb.2 b hbmem), ?_⟩
      rcases hwos with h' | h'
      · rw [h']
        norm_num
      · rw [h']
        rcases hszb.1 with h'' | h'' | h'' | h'' <;> rw [h''] <;> norm_num

theorem deconHeadAux_inv : ∀ (data : List AssemblerVariable),
    (∀ u ∈ data, u.original_size = -1) →
    ∀ bs tl, deconHeadAux data = some (bs, tl) →
      (∀ w ∈ bs, Qvar w) ∧
        (tl = [] ∨ ∃ z t', tl = z :: t' ∧ z.deconstruct = DeconRes.halt) := by
  intro data
  induction data with
  | nil =>
    intro _ bs tl h
    obtain ⟨rfl, rfl⟩ : ([] : List AssemblerVariable) = bs ∧
        ([] : List AssemblerVariable) = tl := by
      have := Option.some.inj h
      exact ⟨congrArg Prod.fst this, congrArg Prod.snd this⟩
    exact ⟨by simp, Or.inl rfl⟩
  | cons v rest ih =>
    intro hos bs tl h
    unfold deconHeadAux at h
    rcases hd : v.deconstruct with _ | _ | bs0 <;> rw [hd] at h
    · exact absurd h (by simp)
    · obtain ⟨rfl, rfl⟩ : ([] : List AssemblerVariable) = bs ∧ v :: rest = tl := by
        have := Option.some.inj h
        exact ⟨congrArg Prod.fst this, congrArg Prod.snd this⟩
      exact ⟨by simp, Or.inr ⟨v, rest, rfl, hd⟩⟩
    · rcases hr : deconHeadAux rest with _ | ⟨p1, p2⟩ <;> rw [hr] at h
      · exact absurd h (by simp)
      · obtain ⟨rfl, rfl⟩ : bs0 ++ p1 = bs ∧ p2 = tl := by
          have := Option.some.inj h
          exact ⟨congrArg Prod.fst this, congrArg Prod.snd this⟩
        have hrest := ih (fun u hu => hos u (List.mem_cons_of_mem _ hu)) p1 p2 hr
        refine ⟨?_, hrest.2⟩
        intro w hw
        rcases List.mem_append.mp hw with hm | hm
        · exact decon_out_Q v (hos v (List.mem_cons_self _ _)) bs0 hd w hm
        · exact hrest.1 w hm

theorem deconTailAux_inv : ∀ (data : List AssemblerVariable),
    (∀ u ∈ data, u.original_size = -1) →
    ∀ hd bs, deconTailAux data = some (hd, bs) →
      (∀ w ∈ bs, Qvar w) ∧
        (hd = [] ∨ ∃ h0 z, hd = h0 ++ [z] ∧ z.deconstruct = DeconRes.halt) := by
  intro data
  induction data with
  | nil =>
    intro _ hd bs h
    obtain ⟨rfl, rfl⟩ : ([] : List AssemblerVariable) = hd ∧
        ([] : List AssemblerVariable) = bs := by
      have := Option.some.inj h
      exact ⟨congrArg Prod.fst this, congrArg Prod.snd this⟩
    exact ⟨by simp, Or.inl rfl⟩
  | cons v rest ih =>
    intro hos hd bs h
    unfold deconTailAux at h
    rcases hdec : v.deconstruct with _ | _ | bs0 <;> rw [hdec] at h
    · exact absurd h (by simp)
    · obtain ⟨rfl, rfl⟩ : (v :: rest).reverse = hd ∧
          ([] : List AssemblerVariable) = bs := by
        have := Option.some.inj h
        exact ⟨congrArg Prod.fst this, congrArg Prod.snd this⟩
      exact ⟨by simp, Or.inr ⟨rest.reverse, v, by simp, hdec⟩⟩
    · rcases hr : deconTailAux rest with _ | ⟨p1, p2⟩ <;> rw [hr] at h
      · exact absurd h (by simp)
      · obtain ⟨rfl, rfl⟩ : p1 = hd ∧ p2 ++ bs0 = bs := by
          have := Option.some.inj h
          exact ⟨congrArg Prod.fst this, congrArg Prod.snd this⟩
        have hrest := ih (fun u hu => hos u (List.mem_cons_of_mem _ hu)) p1 p2 hr
        refine ⟨?_, hrest.2⟩
        intro w hw
        rcases List.mem_append.mp hw with hm | hm
        · exact hrest.1 w hm
        · exact decon_out_Q v (hos v (List.mem_cons_self _ _)) bs0 hdec w hm

theorem reconLoop_fail_sv : ∀ (todo : List AssemblerVariable)
    (self : AssemblerVariable) (os : Int) (ii : Nat) (acc : List Nat)
    (w : AssemblerVariable),
    reconLoop self os todo ii acc = (w, RecLoopRes.fail) →
    w.size = self.size ∧ w.value = self.value := by
  intro todo
  induction todo with
  | nil =>
    intro self os ii acc w h
    unfold reconLoop at h
    exact absurd (congrArg Prod.snd h) (by simp)
  | cons op rest ih =>
    intro self os ii acc w h
    unfold reconLoop at h
    split_ifs at h with h1 h2 h3 h4 h5 h6 <;>
      first
        | (obtain rfl : self = w := congrArg Prod.fst h
           exact ⟨rfl, rfl⟩)
        | (obtain rfl : { self with
               label_post := self.label_post ++ op.label_post } = w :=
             congrArg Prod.fst h
           exact ⟨rfl, rfl⟩)
        | (rcases hch : chrVal op.value with _ | b <;> rw [hch] at h
           · exact RecLoopRes.noConfusion (congrArg Prod.snd h)
           · exact ih self os (ii + 1) (acc ++ [b]) w h)
        | (rcases hch : chrVal op.value with _ | b <;> rw [hch] at h
           · exact RecLoopRes.noConfusion (congrArg Prod.snd h)
           · exact ih { self with
                 label_post := self.label_post ++ op.label_post }
               os (ii + 1) (acc ++ [b]) w h)

theorem reconLoop_ok_sv : ∀ (todo : List AssemblerVariable)
    (self : AssemblerVariable) (os : Int) (ii : Nat) (acc : List Nat)
    (w : AssemblerVariable) (bytes : List Nat),
    reconLoop self os todo ii acc = (w, RecLoopRes.ok bytes) →
    w.size = self.size ∧ w.value = self.value ∧
      ∃ bs, bytes = acc ++ bs ∧
        List.Forall₂ (fun op b => chrVal op.value = some b) todo bs := by
  intro todo
  induction todo with
  | nil =>
    intro self os ii acc w bytes h
    unfold reconLoop at h
    obtain rfl : self = w := congrArg Prod.fst h
    have h2 : RecLoopRes.ok acc = RecLoopRes.ok bytes := congrArg Prod.snd h
    obtain rfl : acc = bytes := RecLoopRes.ok.inj h2
    exact ⟨rfl, rfl, [], by simp, List.Forall₂.nil⟩
  | cons op rest ih =>
    intro self os ii acc w bytes h
    unfold reconLoop at h
    split_ifs at h with h1 h2 h3 h4 h5 h6 <;>
      first
        | exact RecLoopRes.noConfusion (congrArg Prod.snd h)
        | (rcases hch : chrVal op.value with _ | b <;> rw [hch] at h
           · exact RecLoopRes.noConfusion (congrArg Prod.snd h)
           · obtain ⟨hs, hv, bs, hbytes, hf⟩ :=
               ih _ os (ii + 1) (acc ++ [b]) w bytes h
             exact ⟨hs, hv, b :: bs, by simp [hbytes], List.Forall₂.cons hch hf⟩)


theorem reconstruct_step (v : AssemblerVariable) (lst : List AssemblerVariable)
    (b0 : Nat) (hch : chrVal v.value = some b0) (h1 : ¬ v.original_size ≤ 1)
    (h2 : ¬ ((lst.length : Int) < v.original_size - 1)) :
    v.reconstruct lst =
      (match reconLoop { v with original_size := -1 } v.original_size
          (lst.take (v.original_size - 1).toNat) 0 [b0] with
        | (w2, RecLoopRes.crash) => (w2, ReconRes.crash)
        | (w2, RecLoopRes.fail) => (w2, ReconRes.fail)
        | (w2, RecLoopRes.ok bytes) =>
          ({ w2 with
              value := if v.original_size = 2 ∨ v.original_size = 4 ∨
                  v.original_size = 8 then Value.vint (bytesToNat bytes)
                else w2.value,
              size := v.original_size.toNat },
            ReconRes.ok (v.original_size - 1).toNat)) := by
  simp only [AssemblerVariable.reconstruct]
  rw [if_neg h1, if_neg h2, hch]

theorem reconstruct_fail_sv (v : AssemblerVariable) (lst : List AssemblerVariable)
    (w : AssemblerVariable) (h : v.reconstruct lst = (w, ReconRes.fail)) :
    w.size = v.size ∧ w.value = v.value := by
  by_cases h1 : v.original_size ≤ 1
  · simp only [AssemblerVariable.reconstruct, if_pos h1] at h
    obtain rfl : { v with original_size := -1 } = w := congrArg Prod.fst h
    exact ⟨rfl, rfl⟩
  · by_cases h2 : (lst.length : Int) < v.original_size - 1
    · simp only [AssemblerVariable.reconstruct, if_neg h1, if_pos h2] at h
      obtain rfl : { v with original_size := -1 } = w := congrArg Prod.fst h
      exact ⟨rfl, rfl⟩
    · rcases hch : chrVal v.value with _ | b0
      · simp only [AssemblerVariable.reconstruct, if_neg h1, if_neg h2, hch] at h
        exact ReconRes.noConfusion (congrArg Prod.snd h)
      · rw [reconstruct_step v lst b0 hch h1 h2] at h
        rcases hr : reconLoop { v with original_size := -1 } v.original_size
            (lst.take (v.original_size - 1).toNat) 0 [b0] with ⟨w2, res⟩
        rw [hr] at h
        cases res with
        | crash => exact ReconRes.noConfusion (congrArg Prod.snd h)
        | fail =>
          obtain rfl : w2 = w := congrArg Prod.fst h
          exact reconLoop_fail_sv _ { v with original_size := -1 } _ _ _ _ hr
        | ok bytes => exact ReconRes.noConfusion (congrArg Prod.snd h)

theorem reconstruct_ok_spec (v : AssemblerVariable) (lst : List AssemblerVariable)
    (w : AssemblerVariable) (n : Nat) (h : v.reconstruct lst = (w, ReconRes.ok n)) :
    2 ≤ v.original_size ∧ n = (v.original_size - 1).toNat ∧
      v.original_size - 1 ≤ (lst.length : Int) ∧
      ∃ b0 bs, chrVal v.value = some b0 ∧
        List.Forall₂ (fun op b => chrVal op.value = some b) (lst.take n) bs ∧
        w.size = v.original_size.toNat ∧
        w.value = (if v.original_size = 2 ∨ v.original_size = 4 ∨
            v.original_size = 8 then Value.vint (bytesToNat (b0 :: bs))
          else v.value) := by
  by_cases h1 : v.original_size ≤ 1
  · simp only [AssemblerVariable.reconstruct, if_pos h1] at h
    exact ReconRes.noConfusion (congrArg Prod.snd h)
  · by_cases h2 : (lst.length : Int) < v.original_size - 1
    · simp only [AssemblerVariable.reconstruct, if_neg h1, if_pos h2] at h
      exact ReconRes.noConfusion (congrArg Prod.snd h)
    · rcases hch : chrVal v.value with _ | b0
      · simp only [AssemblerVariable.reconstruct, if_neg h1, if_neg h2, hch] at h
        exact ReconRes.noConfusion (congrArg Prod.snd h)
      · rw [reconstruct_step v lst b0 hch h1 h2] at h
        rcases hr : reconLoop { v with original_size := -1 } v.original_size
            (lst.take (v.original_size - 1).toNat) 0 [b0] with ⟨w2, res⟩
        rw [hr] at h
        cases res with
        | crash => exact ReconRes.noConfusion (congrArg Prod.snd h)
        | fail => exact ReconRes.noConfusion (congrArg Prod.snd h)
        | ok bytes =>
          have hn : (v.original_size - 1).toNat = n :=
            ReconRes.ok.inj (congrArg Prod.snd h)
          obtain rfl : { w2 with
              value := if v.original_size = 2 ∨ v.original_size = 4 ∨
                  v.original_size = 8 then Value.vint (bytesToNat bytes)
                else w2.value,
              size := v.original_size.toNat } = w := congrArg Prod.fst h
          obtain ⟨hs, hv, bs, hbytes, hf⟩ := reconLoop_ok_sv _ _ _ _ _ _ _ hr
          refine ⟨by omega, hn.symm, by omega, b0, bs, rfl, ?_, rfl, ?_⟩
          · rw [← hn]
            exact hf
          · show (if v.original_size = 2 ∨ v.original_size = 4 ∨
                v.original_size = 8 then Value.vint (bytesToNat bytes)
              else w2.value) = _
            rw [hbytes, hv]
            rfl

theorem ds_roundtrip (l : List Nat) (hb : ∀ b ∈ l, b < 256)
    (hl : l.length = 2 ∨ l.length = 4 ∨ l.length = 8) :
    deconstruct_single l.length ((bytesToNat l : Int)) = some l := by
  have hn := bytesToNat_lt l hb
  have hle := leBytes_bytesToNat l hb
  rcases hl with h | h | h <;> rw [h] at hn hle ⊢ <;> norm_num at hn <;>
    unfold deconstruct_single
  · have hpw : ((2:Int) ^ 16) = 65536 := by norm_num
    have hr : (-(2 ^ 15 : Int) ≤ ((bytesToNat l : Int)) ∧
        ((bytesToNat l : Int)) < 2 ^ 16) := by
      rw [hpw]
      constructor <;> omega
    have heq : (((bytesToNat l : Int)) % 2 ^ 16).toNat = bytesToNat l := by
      rw [hpw]
      omega
    rw [if_neg (by norm_num), if_pos rfl, if_pos hr, heq, hle]
  · have hpw : ((2:Int) ^ 32) = 4294967296 := by norm_num
    have hr : (-(2 ^ 31 : Int) ≤ ((bytesToNat l : Int)) ∧
        ((bytesToNat l : Int)) < 2 ^ 32) := by
      rw [hpw]
      constructor <;> omega
    have heq : (((bytesToNat l : Int)) % 2 ^ 32).toNat = bytesToNat l := by
      rw [hpw]
      omega
    rw [if_neg (by norm_num), if_neg (by norm_num), if_pos rfl, if_pos hr,
      heq, hle]
  · have hpw : ((2:Int) ^ 64) = 18446744073709551616 := by norm_num
    have hr : (-(2 ^ 63 : Int) ≤ ((bytesToNat l : Int)) ∧
        ((bytesToNat l : Int)) < 2 ^ 64) := by
      rw [hpw]
      constructor <;> omega
    have heq : (((bytesToNat l : Int)) % 2 ^ 64).toNat = bytesToNat l := by
      rw [hpw]
      omega
    rw [if_neg (by norm_num), if_neg (by norm_num), if_neg (by norm_num),
      if_pos rfl, if_pos hr, heq, hle]

theorem combined_selfDecon (w : AssemblerVariable) (l : List Nat)
    (hsize : w.size = l.length)
    (hval : w.value = Value.vint ((bytesToNat l : Int)))
    (hl : l.length = 2 ∨ l.length = 4 ∨ l.length = 8)
    (hb : ∀ b ∈ l, b < 256) :
    w.deconstruct = DeconRes.bytes (mkByteVars w l) := by
  have hds := ds_roundtrip l hb hl
  have hcc : deconCore w.size w.value = some (some l) := by
    rw [hsize, hval]
    show some (deconstruct_single l.length ((bytesToNat l : Int))) = some (some l)
    rw [hds]
  rw [deconstruct_eq_bytes _ _ hcc, if_neg (by omega)]

theorem forall2_mem_left {A B : Type} (R : A → B → Prop) (l1 : List A)
    (l2 : List B) (h : List.Forall₂ R l1 l2) (x : A) (hx : x ∈ l1) :
    ∃ y, R x y := by
  induction h with
  | nil => exact absurd hx (by simp)
  | cons h1 h2 ih =>
    rcases List.mem_cons.mp hx with rfl | hm
    · exact ⟨_, h1⟩
    · exact ih hm

theorem forall2_chr_sizeValue (ops : List AssemblerVariable) (bs : List Nat)
    (hf : List.Forall₂ (fun op b => chrVal op.value = some b) ops bs)
    (hq : ∀ op ∈ ops, op.deconstruct = DeconRes.bytes [op]) :
    ops.map sizeValue = bs.map fun (b : Nat) => (1, Value.vint (b : Int)) := by
  induction hf with
  | nil => rfl
  | @cons a b l1 l2 h1 h2 ih =>
    obtain ⟨hs, hv⟩ := size_one_of_chr _ _ (hq _ (List.mem_cons_self _ _)) h1
    simp only [List.map_cons, sizeValue, hs, hv]
    rw [ih (fun op hop => hq op (List.mem_cons_of_mem _ hop))]

theorem forall2_chr_bound (ops : List AssemblerVariable) (bs : List Nat)
    (hf : List.Forall₂ (fun op b => chrVal op.value = some b) ops bs) :
    ∀ b ∈ bs, b < 256 := by
  induction hf with
  | nil => simp
  | @cons a b l1 l2 h1 h2 ih =>
    intro x hx
    rcases List.mem_cons.mp hx with rfl | hm
    · exact (chrVal_spec _ _ h1).2
    · exact ih x hm

theorem deconHeadAux_append (d1 : List AssemblerVariable)
    (ll : List (List AssemblerVariable))
    (hf : List.Forall₂ (fun v l => v.deconstruct = DeconRes.bytes l) d1 ll) :
    ∀ t, deconHeadAux (d1 ++ t) =
      (deconHeadAux t).map fun p => (ll.flatten ++ p.1, p.2) := by
  induction hf with
  | nil =>
    intro t
    rcases ht : deconHeadAux t with _ | p <;> simp [ht]
  | @cons a l d1' ll' h1 h2 ih =>
    intro t
    rw [List.cons_append]
    simp only [deconHeadAux, h1]
    rw [ih t]
    rcases ht : deconHeadAux t with _ | p <;>
      simp [ht, List.flatten_cons, List.append_assoc]

theorem deconTailAux_append (dsr : List AssemblerVariable)
    (llr : List (List AssemblerVariable))
    (hf : List.Forall₂ (fun v l => v.deconstruct = DeconRes.bytes l) dsr llr) :
    ∀ t, deconTailAux (dsr ++ t) =
      (deconTailAux t).map fun p => (p.1, p.2 ++ (llr.reverse).flatten) := by
  induction hf with
  | nil =>
    intro t
    rcases ht : deconTailAux t with _ | p <;> simp [ht]
  | @cons a l dsr' llr' h1 h2 ih =>
    intro t
    rw [List.cons_append]
    simp only [deconTailAux, h1]
    rw [ih t]
    rcases ht : deconTailAux t with _ | p <;>
      simp [ht, List.reverse_cons, List.flatten_append, List.append_assoc]

theorem srecon_blocked (t data : List AssemblerVariable)
    (hz : ∀ z t', t = z :: t' → z.deconstruct = DeconRes.halt)
    (h : sreconstruct t = some data) :
    (∀ z d2', data = z :: d2' → z.deconstruct = DeconRes.halt) ∧
      (t = [] → data = []) := by
  cases t with
  | nil =>
    rw [sreconstruct] at h
    obtain rfl : [] = data := Option.some.inj h
    exact ⟨fun z d2' hd => absurd hd (by simp), fun _ => rfl⟩
  | cons z t' =>
    have hzh := hz z t' rfl
    rw [sreconstruct] at h
    rcases hzr : z.reconstruct t' with ⟨z2, res⟩
    rw [hzr] at h
    cases res with
    | crash => exact absurd h (by simp)
    | fail =>
      rcases hrec : sreconstruct t' with _ | dd <;> rw [hrec] at h
      · exact absurd h (by simp)
      · obtain rfl : z2 :: dd = data := Option.some.inj h
        refine ⟨?_, fun ht => absurd ht (by simp)⟩
        intro z0 d2' hd
        injection hd with h1 h2
        subst h1
        obtain ⟨-, hv⟩ := reconstruct_fail_sv _ _ _ hzr
        exact halt_congr z _ hzh hv
    | ok n =>
      obtain ⟨-, -, -, b0, bs, hch, -⟩ := reconstruct_ok_spec _ _ _ _ hzr
      rw [chrVal_none_of_halt _ hzh] at hch
      exact absurd hch (by simp)

theorem sreconWF : ∀ (N : Nat) (s t data : List AssemblerVariable),
    s.length ≤ N →
    (∀ v ∈ s, Qvar v) →
    (∀ z t', t = z :: t' → z.deconstruct = DeconRes.halt) →
    sreconstruct (s ++ t) = some data →
    ∃ d1 ll d2, data = d1 ++ d2 ∧
      List.Forall₂ (fun v l => v.deconstruct = DeconRes.bytes l) d1 ll ∧
      ll.flatten.map sizeValue = s.map sizeValue ∧
      (∀ z d2', d2 = z :: d2' → z.deconstruct = DeconRes.halt) ∧
      (t = [] → d2 = []) := by
  intro N
  induction N with
  | zero =>
    intro s t data hN hQ hz h
    obtain rfl : s = [] := List.length_eq_zero.mp (by omega)
    rw [List.nil_append] at h
    obtain ⟨hhead, hnil⟩ := srecon_blocked t data hz h
    exact ⟨[], [], data, by simp, List.Forall₂.nil, by simp, hhead, hnil⟩
  | succ N ih =>
    intro s t data hN hQ hz h
    cases s with
    | nil =>
      rw [List.nil_append] at h
      obtain ⟨hhead, hnil⟩ := srecon_blocked t data hz h
      exact ⟨[], [], data, by simp, List.Forall₂.nil, by simp, hhead, hnil⟩
    | cons front s2 =>
      have hQf : Qvar front := hQ front (List.mem_cons_self _ _)
      have hN2 : s2.length ≤ N := by
        simp only [List.length_cons] at hN
        omega
      rw [List.cons_append, sreconstruct] at h
      rcases hfr : front.reconstruct (s2 ++ t) with ⟨v, res⟩
      rw [hfr] at h
      cases res with
      | crash => exact absurd h (by simp)
      | fail =>
        rcases hrec : sreconstruct (s2 ++ t) with _ | data2 <;> rw [hrec] at h
        · exact absurd h (by simp)
        · obtain rfl : v :: data2 = data := Option.some.inj h
          obtain ⟨d1, ll, d2, rfl, hf, hsv, hhead, hnil⟩ :=
            ih s2 t data2 hN2
              (fun u hu => hQ u (List.mem_cons_of_mem _ hu)) hz hrec
          obtain ⟨hvs, hvv⟩ := reconstruct_fail_sv _ _ _ hfr
          have hvP : v.deconstruct = DeconRes.bytes [v] :=
            selfBytes_congr front v hQf.1 hvs hvv
          refine ⟨v :: d1, [v] :: ll, d2, by simp,
            List.Forall₂.cons hvP hf, ?_, hhead, hnil⟩
          simp only [List.flatten_cons, List.map_cons, List.map_append,
            List.singleton_append]
          rw [hsv]
          congr 1
          unfold sizeValue
          rw [hvs, hvv]
      | ok n =>
        obtain ⟨hos2, hn, hlen, b0, bs, hch, hf2, hws, hwv⟩ :=
          reconstruct_ok_spec _ _ _ _ hfr
        have hosQ : front.original_size = 2 ∨ front.original_size = 4 ∨
            front.original_size = 8 := by
          rcases hQf.2 with h' | h' | h' | h'
          · omega
          · exact Or.inl h'
          · exact Or.inr (Or.inl h')
          · exact Or.inr (Or.inr h')
        have hnle : n ≤ s2.length := by
          by_contra hgt
          push_neg at hgt
          cases t with
          | nil =>
            rw [List.append_nil] at hlen
            omega
          | cons z t2 =>
            have hzmem : z ∈ (s2 ++ z :: t2).take n := by
              rw [List.take_append_eq_append_take]
              refine List.mem_append_right _ ?_
              have h4 : n - s2.length = (n - s2.length - 1) + 1 := by omega
              rw [h4, List.take_succ_cons]
              exact List.mem_cons_self _ _
            obtain ⟨b, hb⟩ := forall2_mem_left _ _ _ hf2 z hzmem
            rw [chrVal_none_of_halt _ (hz z t2 rfl)] at hb
            exact absurd hb (by simp)
        have htake : (s2 ++ t).take n = s2.take n :=
          List.take_append_of_le_length hnle
        have hdrop : (s2 ++ t).drop n = s2.drop n ++ t := by
          rw [List.drop_append_eq_append_drop]
          have h4 : n - s2.length = 0 := by omega
          rw [h4, List.drop_zero]
        have h2 : (sreconstruct ((s2 ++ t).drop n)).map
            (fun x => v :: x) = some data := h
        rcases hrec : sreconstruct ((s2 ++ t).drop n) with _ | data2 <;>
          rw [hrec] at h2
        · exact absurd h2 (by simp)
        · obtain rfl : v :: data2 = data := Option.some.inj h2
          rw [hdrop] at hrec
          obtain ⟨d1, ll, d2, rfl, hf, hsv, hhead, hnil⟩ :=
            ih (s2.drop n) t data2 (by rw [List.length_drop]; omega)
              (fun u hu => hQ u (List.mem_cons_of_mem _ (List.mem_of_mem_drop hu)))
              hz hrec
          rw [htake] at hf2
          have hbsn : bs.length = n := by
            have := hf2.length_eq
            rw [List.length_take] at this
            omega
          have hll : (b0 :: bs).length = front.original_size.toNat := by
            simp only [List.length_cons]
            omega
          have hvval : v.value = Value.vint ((bytesToNat (b0 :: bs) : Int)) := by
            rw [hwv, if_pos hosQ]
          have hvP : v.deconstruct = DeconRes.bytes (mkByteVars v (b0 :: bs)) := by
            refine combined_selfDecon v (b0 :: bs) ?_ hvval ?_ ?_
            · rw [hws, hll]
            · rw [hll]
              omega
            · intro b hbm
              rcases List.mem_cons.mp hbm with rfl | hm
              · exact (chrVal_spec _ _ hch).2
              · exact forall2_chr_bound _ _ hf2 b hm
          refine ⟨v :: d1, mkByteVars v (b0 :: bs) :: ll, d2,
            by simp, List.Forall₂.cons hvP hf, ?_, hhead, hnil⟩
          simp only [List.flatten_cons, List.map_cons, List.map_append]
          rw [mkByteVars_sizeValue, hsv]
          have hfront : sizeValue front = (1, Value.vint (b0 : Int)) := by
            obtain ⟨h1, h2⟩ := size_one_of_chr front b0 hQf.1 hch
            unfold sizeValue
            rw [h1, h2]
          have htail : (s2.take n).map sizeValue =
              bs.map fun (b : Nat) => (1, Value.vint (b : Int)) :=
            forall2_chr_sizeValue _ _ hf2
              (fun op hop => (hQ op (List.mem_cons_of_mem _
                (List.mem_of_mem_take hop))).1)
          have hsplit : s2.map sizeValue =
              (s2.take n).map sizeValue ++ (s2.drop n).map sizeValue := by
            rw [← List.map_append, List.take_append_drop]
          rw [List.map_cons, hsplit, hfront, htail]
          rfl

theorem sreconZstep (z : AssemblerVariable) (s data : List AssemblerVariable)
    (hchz : chrVal z.value = Option.none)
    (hhz : z.deconstruct = DeconRes.halt)
    (h : sreconstruct (z :: s) = some data) :
    ∃ z2 ds, data = z2 :: ds ∧ z2.deconstruct = DeconRes.halt ∧
      sreconstruct s = some ds := by
  rw [sreconstruct] at h
  rcases hzr : z.reconstruct s with ⟨z2, res⟩
  rw [hzr] at h
  cases res with
  | crash => exact absurd h (by simp)
  | fail =>
    rcases hrec : sreconstruct s with _ | ds <;> rw [hrec] at h
    · exact absurd h (by simp)
    · obtain rfl : z2 :: ds = data := Option.some.inj h
      obtain ⟨-, hv⟩ := reconstruct_fail_sv _ _ _ hzr
      exact ⟨z2, ds, rfl, halt_congr z _ hhz hv, rfl⟩
  | ok n =>
    obtain ⟨-, -, -, b0, bs, hch, -⟩ := reconstruct_ok_spec _ _ _ _ hzr
    rw [hchz] at hch
    exact absurd hch (by simp)

theorem sreconHeadBlocked : ∀ (N : Nat) (h0 : List AssemblerVariable)
    (z : AssemblerVariable) (s data : List AssemblerVariable),
    h0.length ≤ N →
    chrVal z.value = Option.none →
    z.deconstruct = DeconRes.halt →
    sreconstruct ((h0 ++ [z]) ++ s) = some data →
    ∃ dh z2 ds, data = (dh ++ [z2]) ++ ds ∧
      z2.deconstruct = DeconRes.halt ∧
      sreconstruct s = some ds := by
  intro N
  induction N with
  | zero =>
    intro h0 z s data hN hchz hhz h
    obtain rfl : h0 = [] := List.length_eq_zero.mp (by omega)
    rw [List.nil_append, List.singleton_append] at h
    obtain ⟨z2, ds, rfl, hz2, hds⟩ := sreconZstep z s data hchz hhz h
    exact ⟨[], z2, ds, by simp, hz2, hds⟩
  | succ N ihN =>
    intro h0 z s data hN hchz hhz h
    cases h0 with
    | nil =>
      rw [List.nil_append, List.singleton_append] at h
      obtain ⟨z2, ds, rfl, hz2, hds⟩ := sreconZstep z s data hchz hhz h
      exact ⟨[], z2, ds, by simp, hz2, hds⟩
    | cons g h02 =>
      have hN2 : h02.length ≤ N := by
        simp only [List.length_cons] at hN
        omega
      rw [List.cons_append, List.cons_append, sreconstruct] at h
      rcases hfr : g.reconstruct ((h02 ++ [z]) ++ s) with ⟨v, res⟩
      rw [hfr] at h
      cases res with
      | crash => exact absurd h (by simp)
      | fail =>
        rcases hrec : sreconstruct ((h02 ++ [z]) ++ s) with _ | data2 <;>
          rw [hrec] at h
        · exact absurd h (by simp)
        · obtain rfl : v :: data2 = data := Option.some.inj h
          obtain ⟨dh, z2, ds, rfl, hz2, hds⟩ :=
            ihN h02 z s data2 hN2 hchz hhz hrec
          exact ⟨v :: dh, z2, ds, by simp, hz2, hds⟩
      | ok n =>
        have h2 : (sreconstruct (((h02 ++ [z]) ++ s).drop n)).map
            (fun x => v :: x) = some data := h
        obtain ⟨-, -, -, b0, bs, -, hf2, -⟩ := reconstruct_ok_spec _ _ _ _ hfr
        have hnle : n ≤ h02.length := by
          by_contra hgt
          push_neg at hgt
          have hzmem : z ∈ ((h02 ++ [z]) ++ s).take n := by
            rw [List.append_assoc, List.singleton_append,
              List.take_append_eq_append_take]
            refine List.mem_append_right _ ?_
            have h4 : n - h02.length = (n - h02.length - 1) + 1 := by omega
            rw [h4, List.take_succ_cons]
            exact List.mem_cons_self _ _
          obtain ⟨b, hb⟩ := forall2_mem_left _ _ _ hf2 z hzmem
          rw [hchz] at hb
          exact absurd hb (by simp)
        have hdrop : ((h02 ++ [z]) ++ s).drop n = (h02.drop n ++ [z]) ++ s := by
          rw [List.append_assoc, List.drop_append_eq_append_drop]
          have h4 : n - h02.length = 0 := by omega
          rw [h4, List.drop_zero, List.append_assoc]
        rcases hrec : sreconstruct (((h02 ++ [z]) ++ s).drop n) with _ | data2 <;>
          rw [hrec] at h2
        · exact absurd h2 (by simp)
        · obtain rfl : v :: data2 = data := Option.some.inj h2
          rw [hdrop] at hrec
          obtain ⟨dh, z2, ds, rfl, hz2, hds⟩ :=
            ihN (h02.drop n) z s data2 (by rw [List.length_drop]; omega)
              hchz hhz hrec
          exact ⟨v :: dh, z2, ds, by simp, hz2, hds⟩

theorem zipWith_merge_sizeValue : ∀ (xs ys : List AssemblerVariable),
    xs.length ≤ ys.length →
    (xs.zipWith AssemblerVariable.merge ys).map sizeValue = xs.map sizeValue := by
  intro xs
  induction xs with
  | nil => intro ys _; rfl
  | cons x xt ih =>
    intro ys hl
    cases ys with
    | nil => simp at hl
    | cons y yt =>
      simp only [List.zipWith_cons_cons, List.map_cons]
      rw [ih yt (by simp only [List.length_cons] at hl; omega)]
      rfl

theorem mergeLastK_sizeValue (src dst : List AssemblerVariable) (k : Nat)
    (hk1 : k ≤ src.length) (hk2 : k ≤ dst.length) :
    (mergeLastK src dst k).map sizeValue = src.map sizeValue := by
  unfold mergeLastK
  rw [List.map_append, zipWith_merge_sizeValue _ _ (by
    rw [List.length_drop, List.length_take]
    omega)]
  rw [← List.map_append, List.take_append_drop]

theorem mem_zipWith_merge : ∀ (xs ys : List AssemblerVariable)
    (w : AssemblerVariable),
    w ∈ xs.zipWith AssemblerVariable.merge ys →
    ∃ x ∈ xs, ∃ y, w = x.merge y := by
  intro xs
  induction xs with
  | nil =>
    intro ys w hw
    simp at hw
  | cons x xt ih =>
    intro ys w hw
    cases ys with
    | nil => simp at hw
    | cons y yt =>
      rw [List.zipWith_cons_cons] at hw
      rcases List.mem_cons.mp hw with rfl | hm
      · exact ⟨x, List.mem_cons_self _ _, y, rfl⟩
      · obtain ⟨x2, hx2, y2, rfl⟩ := ih yt w hm
        exact ⟨x2, List.mem_cons_of_mem _ hx2, y2, rfl⟩

theorem merge_Q (x y : AssemblerVariable) (hx : Qvar x) :
    Qvar (x.merge y) := by
  exact ⟨selfBytes_congr x _ hx.1 rfl rfl, hx.2⟩

theorem mergeLastK_Q (src dst : List AssemblerVariable) (k : Nat)
    (hQ : ∀ v ∈ src, Qvar v) :
    ∀ w ∈ mergeLastK src dst k, Qvar w := by
  intro w hw
  unfold mergeLastK at hw
  rcases List.mem_append.mp hw with hm | hm
  · exact hQ w (List.mem_of_mem_take hm)
  · obtain ⟨x, hx, y, rfl⟩ := mem_zipWith_merge _ _ _ hm
    exact merge_Q x y (hQ x (List.mem_of_mem_drop hx))

theorem foldlRangeMax (cond : Nat → Bool) : ∀ n : Nat,
    ((List.range n).foldl (fun acc ii => if cond (ii + 1) then ii + 1 else acc) 0)
        ≤ n ∧
    (((List.range n).foldl
        (fun acc ii => if cond (ii + 1) then ii + 1 else acc) 0) = 0 ∨
      cond ((List.range n).foldl
        (fun acc ii => if cond (ii + 1) then ii + 1 else acc) 0) = true) ∧
    ∀ k, k ≤ n → cond k = true →
      k ≤ ((List.range n).foldl
        (fun acc ii => if cond (ii + 1) then ii + 1 else acc) 0) := by
  intro n
  induction n with
  | zero => exact ⟨le_refl _, Or.inl rfl, fun k hk _ => hk⟩
  | succ n ih =>
    obtain ⟨ih1, ih2, ih3⟩ := ih
    rw [List.range_succ, List.foldl_append, List.foldl_cons, List.foldl_nil]
    by_cases hc : cond (n + 1) = true
    · rw [if_pos hc]
      exact ⟨le_refl _, Or.inr hc, fun k hk _ => hk⟩
    · rw [if_neg hc]
      refine ⟨Nat.le_succ_of_le ih1, ih2, ?_⟩
      intro k hk hck
      by_cases hkn : k = n + 1
      · subst hkn
        exact absurd hck hc
      · exact ih3 k (by omega) hck

theorem highestMergable_spec (src dst : List AssemblerVariable) :
    highestMergable src dst ≤ min src.length dst.length ∧
    (highestMergable src dst = 0 ∨
      pairwiseMergable src dst (highestMergable src dst) = true) ∧
    ∀ k, k ≤ min src.length dst.length → pairwiseMergable src dst k = true →
      k ≤ highestMergable src dst :=
  foldlRangeMax (fun k => pairwiseMergable src dst k) (min src.length dst.length)

/-- C2: on segments whose variables carry the inert `original_size`
sentinel, `merge` picks the largest `k` not exceeding the two byte-stream
lengths with the last `k` source bytes pairwise mergable into the first
`k` destination bytes; `k = 0` leaves both segments untouched and returns
false, and `k > 0` merges the overlap and drops it from the destination,
after which the deconstructed byte streams are `bytes(A)` and
`bytes(B)` with the first `k` bytes removed (sizes and values
preserved). -/
theorem C2_merge (a b : AssemblerSegment)
    (head_src bs_src bs_dst tail_dst : List AssemblerVariable)
    (ha : a.deconstruct_tail = some (head_src, bs_src))
    (hb : b.deconstruct_head = some (bs_dst, tail_dst))
    (hosa : ∀ v ∈ a.data, v.original_size = -1)
    (hosb : ∀ v ∈ b.data, v.original_size = -1)
    (a2 b2 : AssemblerSegment) (r : Bool)
    (hm : a.merge b = some (a2, b2, r)) :
    (highestMergable bs_src bs_dst ≤ min bs_src.length bs_dst.length ∧
      (highestMergable bs_src bs_dst = 0 ∨
        pairwiseMergable bs_src bs_dst (highestMergable bs_src bs_dst) = true) ∧
      ∀ j, j ≤ min bs_src.length bs_dst.length →
        pairwiseMergable bs_src bs_dst j = true →
        j ≤ highestMergable bs_src bs_dst) ∧
    (r = true ↔ highestMergable bs_src bs_dst ≠ 0) ∧
    (highestMergable bs_src bs_dst = 0 → a2 = a ∧ b2 = b) ∧
    (highestMergable bs_src bs_dst ≠ 0 →
      ∃ head2 bsa2 bsb2 tail2,
        a2.deconstruct_tail = some (head2, bsa2) ∧
        b2.deconstruct_head = some (bsb2, tail2) ∧
        bsa2.map sizeValue = bs_src.map sizeValue ∧
        bsb2.map sizeValue =
          (bs_dst.drop (highestMergable bs_src bs_dst)).map sizeValue) := by
  obtain ⟨hhm1, hhm2, hhm3⟩ := highestMergable_spec bs_src bs_dst
  unfold AssemblerSegment.merge at hm
  rw [ha, hb] at hm
  have hm2 : (if highestMergable bs_src bs_dst = 0 then some (a, b, false)
      else
        match sreconstruct (head_src ++ mergeLastK bs_src bs_dst
            (highestMergable bs_src bs_dst)),
          sreconstruct (bs_dst.drop (highestMergable bs_src bs_dst) ++ tail_dst) with
        | some da, some db =>
            some ({ a with data := da }, { b with data := db }, true)
        | _, _ => Option.none) = some (a2, b2, r) := hm
  by_cases hk0 : highestMergable bs_src bs_dst = 0
  · rw [if_pos hk0] at hm2
    have h3 := Option.some.inj hm2
    have hr : false = r :=
      congrArg (fun p : AssemblerSegment × AssemblerSegment × Bool => p.2.2) h3
    refine ⟨⟨hhm1, hhm2, hhm3⟩, ?_, ?_, fun hne => absurd hk0 hne⟩
    · constructor
      · intro hx
        rw [← hr] at hx
        exact absurd hx (by simp)
      · intro hx
        exact absurd hk0 hx
    · intro _
      have h4 : a = a2 :=
        congrArg (fun p : AssemblerSegment × AssemblerSegment × Bool => p.1) h3
      have h5 : b = b2 :=
        congrArg (fun p : AssemblerSegment × AssemblerSegment × Bool => p.2.1) h3
      exact ⟨h4.symm, h5.symm⟩
  · rw [if_neg hk0] at hm2
    rcases hra : sreconstruct (head_src ++ mergeLastK bs_src bs_dst
        (highestMergable bs_src bs_dst)) with _ | da <;> rw [hra] at hm2
    · exact absurd hm2 (by simp)
    · rcases hrb : sreconstruct (bs_dst.drop (highestMergable bs_src bs_dst) ++
          tail_dst) with _ | db <;> rw [hrb] at hm2
      · exact absurd hm2 (by simp)
      · have h3 := Option.some.inj hm2
        have ha2 : { a with data := da } = a2 :=
          congrArg (fun p : AssemblerSegment × AssemblerSegment × Bool => p.1) h3
        have hb2 : { b with data := db } = b2 :=
          congrArg (fun p : AssemblerSegment × AssemblerSegment × Bool => p.2.1) h3
        have hr : true = r :=
          congrArg (fun p : AssemblerSegment × AssemblerSegment × Bool => p.2.2) h3
        obtain ⟨hQsrc, hshapeA⟩ := deconTailAux_inv a.data.reverse
          (fun u hu => hosa u (List.mem_reverse.mp hu)) head_src bs_src ha
        obtain ⟨hQdst, hshapeB⟩ := deconHeadAux_inv b.data hosb bs_dst tail_dst hb
        have hk1 : highestMergable bs_src bs_dst ≤ bs_src.length := by omega
        have hk2 : highestMergable bs_src bs_dst ≤ bs_dst.length := by omega
        refine ⟨⟨hhm1, hhm2, hhm3⟩, ⟨fun _ => hk0, fun _ => hr.symm⟩,
          fun hzero => absurd hzero hk0, fun _ => ?_⟩
        -- destination side
        have hzB : ∀ z t', tail_dst = z :: t' → z.deconstruct = DeconRes.halt := by
          intro z t' ht
          rcases hshapeB with h' | ⟨z0, t0, heq, hhalt⟩
          · rw [h'] at ht
            exact absurd ht (by simp)
          · rw [heq] at ht
            injection ht with h1 h2
            subst h1
            exact hhalt
        obtain ⟨d1, ll, d2, rfl, hfall, hsv, hd2head, hd2nil⟩ :=
          sreconWF (bs_dst.drop (highestMergable bs_src bs_dst)).length
            (bs_dst.drop (highestMergable bs_src bs_dst)) tail_dst db
            (le_refl _) (fun u hu => hQdst u (List.mem_of_mem_drop hu)) hzB hrb
        have hheadB : b2.deconstruct_head = some (ll.flatten, d2) := by
          rw [← hb2]
          show deconHeadAux (d1 ++ d2) = some (ll.flatten, d2)
          rw [deconHeadAux_append d1 ll hfall d2]
          cases d2 with
          | nil => simp [deconHeadAux]
          | cons z d2' =>
            have hzh := hd2head z d2' rfl
            unfold deconHeadAux
            rw [hzh]
            simp
        -- source side
        have hQmrg : ∀ w ∈ mergeLastK bs_src bs_dst
            (highestMergable bs_src bs_dst), Qvar w :=
          mergeLastK_Q bs_src bs_dst _ hQsrc
        have hmlsv : (mergeLastK bs_src bs_dst
              (highestMergable bs_src bs_dst)).map sizeValue =
            bs_src.map sizeValue :=
          mergeLastK_sizeValue bs_src bs_dst _ hk1 hk2
        have hzNil : ∀ (z : AssemblerVariable) (t' : List AssemblerVariable),
            ([] : List AssemblerVariable) = z :: t' →
            z.deconstruct = DeconRes.halt := by
          intro z t' ht
          exact absurd ht (by simp)
        rcases hshapeA with rfl | ⟨h0, z, rfl, hzhalt⟩
        · -- no non-deconstructible head
          rw [List.nil_append] at hra
          have hra2 : sreconstruct (mergeLastK bs_src bs_dst
              (highestMergable bs_src bs_dst) ++ []) = some da := by
            rw [List.append_nil]
            exact hra
          obtain ⟨e1, mm, e2, rfl, hf2, hsv2, he2head, he2nil⟩ :=
            sreconWF (mergeLastK bs_src bs_dst
                (highestMergable bs_src bs_dst)).length _ [] da
              (le_refl _) hQmrg hzNil hra2
          obtain rfl : e2 = ([] : List AssemblerVariable) := he2nil rfl
          have h6 : deconTailAux ((e1 ++ []).reverse) =
              some ([], mm.flatten) := by
            rw [List.append_nil]
            have h5 := deconTailAux_append e1.reverse mm.reverse
              (List.rel_reverse hf2) []
            rw [List.append_nil] at h5
            rw [h5]
            simp [deconTailAux]
          have htailA : a2.deconstruct_tail = some ([], mm.flatten) := by
            rw [← ha2]
            exact h6
          refine ⟨[], mm.flatten, ll.flatten, d2, htailA, hheadB, ?_, hsv⟩
          rw [hsv2, hmlsv]
        · -- head ends in a halting variable
          have hzchr := chrVal_none_of_halt z hzhalt
          obtain ⟨dh, z2, ds, rfl, hz2halt, hds⟩ :=
            sreconHeadBlocked h0.length h0 z _ da (le_refl _) hzchr hzhalt hra
          have hds2 : sreconstruct (mergeLastK bs_src bs_dst
              (highestMergable bs_src bs_dst) ++ []) = some ds := by
            rw [List.append_nil]
            exact hds
          obtain ⟨e1, mm, e2, rfl, hf2, hsv2, he2head, he2nil⟩ :=
            sreconWF (mergeLastK bs_src bs_dst
                (highestMergable bs_src bs_dst)).length _ [] ds
              (le_refl _) hQmrg hzNil hds2
          obtain rfl : e2 = ([] : List AssemblerVariable) := he2nil rfl
          have h6 : deconTailAux (((dh ++ [z2]) ++ (e1 ++ [])).reverse) =
              some (dh ++ [z2], mm.flatten) := by
            rw [List.append_nil, List.reverse_append]
            have h5 := deconTailAux_append e1.reverse mm.reverse
              (List.rel_reverse hf2) ((dh ++ [z2]).reverse)
            rw [h5]
            rw [List.reverse_append, List.reverse_singleton,
              List.singleton_append]
            have h7 : deconTailAux (z2 :: dh.reverse) =
                some ((z2 :: dh.reverse).reverse, []) := by
              unfold deconTailAux
              rw [hz2halt]
            rw [h7]
            simp
          have htailA : a2.deconstruct_tail = some (dh ++ [z2], mm.flatten) := by
            rw [← ha2]
            exact h6
          refine ⟨dh ++ [z2], mm.flatten, ll.flatten, d2, htailA, hheadB, ?_, hsv⟩
          rw [hsv2, hmlsv]

/-- C2 witness: two one-byte segments holding the same zero byte merge
with a one-byte overlap. -/
theorem C2_merge_witness :
    c2segA.deconstruct_tail = some ([], [c2varA]) ∧
    c2segB.deconstruct_head = some ([c2varB], []) ∧
    (∀ v ∈ c2segA.data, v.original_size = -1) ∧
    (∀ v ∈ c2segB.data, v.original_size = -1) ∧
    c2segA.merge c2segB = some (c2segA2, c2segB2, true) ∧
    ((highestMergable [c2varA] [c2varB] ≤ min [c2varA].length [c2varB].length ∧
      (highestMergable [c2varA] [c2varB] = 0 ∨
        pairwiseMergable [c2varA] [c2varB]
          (highestMergable [c2varA] [c2varB]) = true) ∧
      ∀ j, j ≤ min [c2varA].length [c2varB].length →
        pairwiseMergable [c2varA] [c2varB] j = true →
        j ≤ highestMergable [c2varA] [c2varB]) ∧
    (true = true ↔ highestMergable [c2varA] [c2varB] ≠ 0) ∧
    (highestMergable [c2varA] [c2varB] = 0 →
      c2segA2 = c2segA ∧ c2segB2 = c2segB) ∧
    (highestMergable [c2varA] [c2varB] ≠ 0 →
      ∃ head2 bsa2 bsb2 tail2,
        c2segA2.deconstruct_tail = some (head2, bsa2) ∧
        c2segB2.deconstruct_head = some (bsb2, tail2) ∧
        bsa2.map sizeValue = [c2varA].map sizeValue ∧
        bsb2.map sizeValue =
          ([c2varB].drop (highestMergable [c2varA] [c2varB])).map sizeValue)) := by
  have hs0 : sreconstruct ([] : List AssemblerVariable) = some [] := by
    rw [sreconstruct]
  have hrec : c2merged.reconstruct [] =
      ({ c2merged with original_size := -1 }, ReconRes.fail) := by decide
  have hs1 : sreconstruct [c2merged] = some [c2merged] := by
    rw [sreconstruct, hrec, hs0]
    rfl
  have h1 : c2segA.deconstruct_tail = some ([], [c2varA]) := by decide
  have h2 : c2segB.deconstruct_head = some ([c2varB], []) := by decide
  have hmw : c2segA.merge c2segB = some (c2segA2, c2segB2, true) := by
    unfold AssemblerSegment.merge
    rw [h1, h2]
    show (if highestMergable [c2varA] [c2varB] = 0 then
        some (c2segA, c2segB, false)
      else
        match sreconstruct ([] ++ mergeLastK [c2varA] [c2varB]
            (highestMergable [c2varA] [c2varB])),
          sreconstruct ([c2varB].drop (highestMergable [c2varA] [c2varB]) ++ []) with
        | some da, some db =>
            some ({ c2segA with data := da }, { c2segB with data := db }, true)
        | _, _ => Option.none) = some (c2segA2, c2segB2, true)
    have hk : highestMergable [c2varA] [c2varB] = 1 := by decide
    rw [hk, if_neg (by norm_num)]
    have hml : [] ++ mergeLastK [c2varA] [c2varB] 1 = [c2merged] := by decide
    have hdr : [c2varB].drop 1 ++ ([] : List AssemblerVariable) =
        ([] : List AssemblerVariable) := by decide
    rw [hml, hdr, hs1, hs0]
    decide
  exact ⟨h1, h2, by decide, by decide, hmw,
    C2_merge c2segA c2segB [] [c2varA] [c2varB] [] h1 h2
      (by decide) (by decide) c2segA2 c2segB2 true hmw⟩
